import Mathlib

/-!
# BoostTester: stress array, walk and core selection

A shallow embedding of `BoostTester.cpp`.

* Arrays are lists; `a[i]` on the right of an assignment is the total lookup
  `a[i]?`, and `a[i] = v` is `writeAt`, which fails outside the allocation.
  A function that can fail returns `Option`.
* `new T[n]` yields `n` cells of indeterminate content: `allocCells n junk`,
  where `junk` is the arbitrary previous content of the cells.
* A counted loop `for (i = lo; i < hi; i++) body` whose body does not assign `i`
  is `forLoop body (hi - lo) lo`.
* `rand()` is a stream `rand : Nat → Nat`; the number of calls made so far is
  part of the state.
* The half size is a parameter `H` of the builder and the array size a parameter `N` of
  `runTest`; the configured values are `HALF_ARRAY` and `ARRAY_SIZE`.  Index arithmetic
  is done in `Nat` and core counts are in `Int`: the source computes with 32-bit
  `unsigned int` and `int`, which agree with these as long as no intermediate value
  reaches `2 ^ 31`, as is the case for the configured size `2 ^ 26`.  The two conversions
  at the call `counter = runTest(cpuValue)` are `toInt32` and `toULong`.
-/

namespace BoostTester

/-! ## Memory and loops -/

/-- The statement `a[i] = v`; fails when `i` is outside the allocation. -/
def writeAt {α : Type} (a : List α) (i : Nat) (v : α) : Option (List α) :=
  if i < a.length then some (a.set i v) else none

/-- The result of `new T[n]`: `n` cells, cell `k` holding the indeterminate value `junk k`. -/
def allocCells {α : Type} (n : Nat) (junk : Nat → α) : List α :=
  (List.range n).map junk

/-- The loop `for (i = lo; i < lo + n; i++) s = body i s`, stopping at the first failure. -/
def forLoop {σ : Type} (body : Nat → σ → Option σ) : Nat → Nat → σ → Option σ
  | 0, _, s => some s
  | n + 1, i, s => (body i s).bind (forLoop body n (i + 1))

/-! ## Constants (lines 12-13) -/

/-- The constant `HALF_ARRAY = 0x1FFFFFF + 1`. -/
def HALF_ARRAY : Nat := 0x1FFFFFF + 1

/-- The constant `ARRAY_SIZE = HALF_ARRAY * 2`, as a function of the half size. -/
def arraySize (H : Nat) : Nat := H * 2

/-- The constant `ARRAY_SIZE`. -/
def ARRAY_SIZE : Nat := arraySize HALF_ARRAY

/-! ## Building the array (main, lines 200 and 250-275) -/

/-- Body of the fill loop (lines 253 and 256). -/
def fillBody (H : Nat) (i : Nat) (mem : List Nat) : Option (List Nat) :=
  (writeAt mem i (i + H)).bind fun m1 => writeAt m1 (i + H) i

/-- The allocation of line 200 followed by the fill loop of lines 250-257. -/
def fillArray (H : Nat) (junk : Nat → Nat) : Option (List Nat) :=
  forLoop (fillBody H) H 0 (allocCells (arraySize H) junk)

/-- The array together with the number of `rand()` calls made so far. -/
structure BuildState where
  /-- The array `mem`. -/
  mem : List Nat
  /-- How many times `rand()` has been called. -/
  randCalls : Nat
deriving DecidableEq

/-- The three statements `temp = mem[i]; mem[i] = mem[r]; mem[r] = temp`. -/
def swapCells (mem : List Nat) (i r : Nat) : Option (List Nat) :=
  (mem[i]?).bind fun temp =>
  (mem[r]?).bind fun x =>
  (writeAt mem i x).bind fun m1 =>
  writeAt m1 r temp

/-- Body of the low shuffle (lines 263-266): `r = rand() % HALF_ARRAY`. -/
def shuffleLowBody (rand : Nat → Nat) (H : Nat) (i : Nat) (s : BuildState) :
    Option BuildState :=
  let r := rand s.randCalls % H
  (swapCells s.mem i r).map fun m => ⟨m, s.randCalls + 1⟩

/-- Body of the high shuffle (lines 271-274): `r = (rand() % HALF_ARRAY) + HALF_ARRAY`. -/
def shuffleHighBody (rand : Nat → Nat) (H : Nat) (i : Nat) (s : BuildState) :
    Option BuildState :=
  let r := rand s.randCalls % H + H
  (swapCells s.mem i r).map fun m => ⟨m, s.randCalls + 1⟩

/-- The low shuffle loop, `for (i = 0; i < HALF_ARRAY; i++)`. -/
def shuffleLow (rand : Nat → Nat) (H : Nat) (s : BuildState) : Option BuildState :=
  forLoop (shuffleLowBody rand H) H 0 s

/-- The high shuffle loop, `for (i = HALF_ARRAY; i < ARRAY_SIZE; i++)`. -/
def shuffleHigh (rand : Nat → Nat) (H : Nat) (s : BuildState) : Option BuildState :=
  forLoop (shuffleHighBody rand H) (arraySize H - H) H s

/-- Allocation, fill loop, low shuffle and high shuffle, in the order of `main`. -/
def buildArray (H : Nat) (rand : Nat → Nat) (junk : Nat → Nat) : Option BuildState :=
  (fillArray H junk).bind fun m =>
  (shuffleLow rand H ⟨m, 0⟩).bind fun s =>
  shuffleHigh rand H s

/-! ## The walk (runTest, lines 161-191) -/

/-- The variable `value` together with a count of the executed `value = mem[value]`. -/
structure WalkState where
  /-- The variable `value`. -/
  value : Nat
  /-- Number of walk steps executed so far. -/
  steps : Nat
deriving DecidableEq

/-- The statement `value = mem[value]` (lines 178 and 186). -/
def walkStep (mem : List Nat) (_i : Nat) (w : WalkState) : Option WalkState :=
  (mem[w.value]?).map fun v => ⟨v, w.steps + 1⟩

/-- The walk `value = mem[0]` followed by `k` times `value = mem[value]`. -/
def walk (mem : List Nat) (k : Nat) : Option WalkState :=
  (mem[0]?).bind fun v => forLoop (walkStep mem) k 0 ⟨v, 0⟩

/-- One outer warm-up iteration (lines 175-180): `ARRAY_SIZE / 8192` steps, then a pause. -/
def warmUpBody (N : Nat) (mem : List Nat) (_n : Nat) (w : WalkState) : Option WalkState :=
  forLoop (walkStep mem) (N / 8192) 0 w

/-- The function `runTest` for an array size `N`: the state of `value` at the `return`,
together with the array, which the function only reads.  The affinity call of line 163
does not touch `mem` or `value`. -/
def runTest (N : Nat) (mem : List Nat) (_core : Int) : Option (List Nat × WalkState) :=
  (mem[0]?).bind fun value =>
  (mem[0]?).bind fun _qvalue =>
  (forLoop (warmUpBody N mem) 100 0 ⟨value, 0⟩).bind fun w1 =>
  (forLoop (walkStep mem) N 0 w1).map fun w2 => (mem, w2)

/-! ## Topology (main, lines 204-243) -/

/-- The values `main` reads from `CPUInfo` in lines 205-209.  The header `CPUInfo.h` is not
among the sources, so the results of its member functions are fields. -/
structure Topology where
  /-- Result of `info.getThreadsPerCore()`; `main` never uses it. -/
  threadsPerCore : Int
  /-- The field `info.physicalCoreCount`. -/
  physicalCoreCount : Int
  /-- The field `info.logicalCoreCount`. -/
  logicalCoreCount : Int
  /-- Result of `info.isHyperThreadingEnabled()`. -/
  isHyperThreadingEnabled : Bool
  /-- Result of `info.hasAsymmetricalCoreThreads()`. -/
  hasAsymmetricalCoreThreads : Bool
deriving DecidableEq

/-- The locals of `main` that the thread assignment sets. -/
structure CoreLayout where
  /-- The array `threadsPerCoreArray`. -/
  threadsPerCoreArray : List Int
  /-- The local `numCoresWithoutHyperThreading`. -/
  numCoresWithoutHyperThreading : Int
  /-- The local `numCoresWithHyperThreading`. -/
  numCoresWithHyperThreading : Int
deriving DecidableEq

/-- The expression `new int[n]`; a negative size fails. -/
def allocInts (n : Int) (junk : Nat → Int) : Option (List Int) :=
  if 0 ≤ n then some (allocCells n.toNat junk) else none

/-- Body of the loop of lines 232-234. -/
def asymmetricBody (numCoresWithHyperThreading : Int) (core : Nat) (a : List Int) :
    Option (List Int) :=
  writeAt a core (if (core : Int) < numCoresWithHyperThreading then 2 else 1)

/-- Body of the loop of lines 240-242. -/
def symmetricBody (isHyperThreadingEnabled : Bool) (core : Nat) (a : List Int) :
    Option (List Int) :=
  writeAt a core (if isHyperThreadingEnabled then 2 else 1)

/-- Lines 210-243 of `main`.  `junk` is the indeterminate content of the fresh array, and
`junkWithout`, `junkWith` are the indeterminate values of the two locals declared without
an initialiser in lines 211-212. -/
def assignThreads (t : Topology) (junk : Nat → Int) (junkWithout junkWith : Int) :
    Option CoreLayout :=
  (allocInts t.physicalCoreCount junk).bind fun arr =>
  if t.hasAsymmetricalCoreThreads then
    let numTheoreticalLogicalCores := t.physicalCoreCount * 2
    let numCoresWithoutHyperThreading := numTheoreticalLogicalCores - t.logicalCoreCount
    let numCoresWithHyperThreading := t.physicalCoreCount - numCoresWithoutHyperThreading
    if numCoresWithoutHyperThreading > 0 then
      (forLoop (asymmetricBody numCoresWithHyperThreading) t.physicalCoreCount.toNat 0 arr).map
        fun a => ⟨a, numCoresWithoutHyperThreading, numCoresWithHyperThreading⟩
    else
      some ⟨arr, numCoresWithoutHyperThreading, numCoresWithHyperThreading⟩
  else
    (forLoop (symmetricBody t.isHyperThreadingEnabled) t.physicalCoreCount.toNat 0 arr).map
      fun a => ⟨a, junkWithout, junkWith⟩

/-! ## The per-core loop (main, lines 278-296) -/

/-- The value of `cpuValue` passed to `runTest` for the core `core` (lines 283-288). -/
def cpuValue (t : Topology) (c : CoreLayout) (core : Nat) : Option Int :=
  (c.threadsPerCoreArray[core]?).map fun threads =>
    if t.hasAsymmetricalCoreThreads && decide ((core : Int) > c.numCoresWithHyperThreading - 1)
    then c.numCoresWithHyperThreading * 2 - 1
          + ((core : Int) - (c.numCoresWithHyperThreading - 1))
    else (core : Int) * threads

/-- Conversion of an `unsigned int` to the 32-bit `int` return type of `runTest`. -/
def toInt32 (u : Nat) : Int :=
  if u % 2 ^ 32 < 2 ^ 31 then ((u % 2 ^ 32 : Nat) : Int) else ((u % 2 ^ 32 : Nat) : Int) - 2 ^ 32

/-- Conversion of an `int` to the 32-bit `unsigned long` of the target platform. -/
def toULong (x : Int) : Nat := (x % 2 ^ 32).toNat

/-- The variable `counter` and the list of arguments of the `runTest` calls made so far. -/
structure MainState where
  /-- The variable `counter`. -/
  counter : Nat
  /-- Arguments of the calls of `runTest`, oldest first. -/
  runs : List Int
deriving DecidableEq

/-- Body of the per-core loop (lines 283-294). -/
def roundBody (N : Nat) (mem : List Nat) (t : Topology) (c : CoreLayout) (core : Nat)
    (s : MainState) : Option MainState :=
  (cpuValue t c core).bind fun cpu =>
  (runTest N mem cpu).map fun r => ⟨toULong (toInt32 r.2.value), s.runs ++ [cpu]⟩

/-- One round of the loop `for (int core = 0; core < physicalCoreCount; core++)`. -/
def coreRound (N : Nat) (mem : List Nat) (t : Topology) (c : CoreLayout) (s : MainState) :
    Option MainState :=
  forLoop (roundBody N mem t c) t.physicalCoreCount.toNat 0 s

/-! ## The outer loop (main, lines 278-299) -/

/-- The bound `0xFFFFFFFFF` of line 280. -/
def OUTER_BOUND : Nat := 0xFFFFFFFFF

/-- Where the loop `while (counter < 0xFFFFFFFFF)` stands after a number of rounds: still
running, or left with its condition false. -/
inductive LoopStatus where
  /-- The loop has completed the rounds asked for and has not been left. -/
  | running (s : MainState)
  /-- The condition was found false in state `s`. -/
  | exited (s : MainState)
deriving DecidableEq

/-- At most `rounds` iterations of the loop of lines 280-296, from state `s`. -/
def mainLoop (N : Nat) (mem : List Nat) (t : Topology) (c : CoreLayout) :
    Nat → MainState → Option LoopStatus
  | 0, s => some (.running s)
  | rounds + 1, s =>
    if s.counter < OUTER_BOUND then (coreRound N mem t c s).bind (mainLoop N mem t c rounds)
    else some (.exited s)

/-! ## The constants and index expressions in `unsigned int` arithmetic -/

/-- Reduction of a value to the 32 bits of an `unsigned int`. -/
def u32 (n : Nat) : Nat := n % 2 ^ 32

/-- `HALF_ARRAY` as line 12 computes it: the `int` sum `0x1FFFFFF + 1`, stored in an
`unsigned int`. -/
def HALF_ARRAY_u32 : Nat := u32 (0x1FFFFFF + 1)

/-- `ARRAY_SIZE` as line 13 computes it: an `unsigned int` product. -/
def ARRAY_SIZE_u32 : Nat := u32 (HALF_ARRAY_u32 * 2)

/-- The expression `i + HALF_ARRAY` of lines 253 and 256. -/
def fillIndex_u32 (i : Nat) : Nat := u32 (i + HALF_ARRAY_u32)

/-- The expression `rand() % HALF_ARRAY` of line 263, for the draw `r`. -/
def lowPartner_u32 (r : Nat) : Nat := u32 r % HALF_ARRAY_u32

/-- The expression `(rand() % HALF_ARRAY) + HALF_ARRAY` of line 271, for the draw `r`. -/
def highPartner_u32 (r : Nat) : Nat := u32 (u32 r % HALF_ARRAY_u32 + HALF_ARRAY_u32)

/-- Body of the fill loop with its expressions in `unsigned int` arithmetic. -/
def fillBody_u32 (i : Nat) (mem : List Nat) : Option (List Nat) :=
  (writeAt mem i (fillIndex_u32 i)).bind fun m1 => writeAt m1 (fillIndex_u32 i) i

/-- The swap of lines 264-266 with the partner held in the `int` variable `r`; a negative
`r` is outside the array. -/
def swapCellsInt (mem : List Nat) (i : Nat) (r : Int) : Option (List Nat) :=
  if 0 ≤ r then swapCells mem i r.toNat else none

/-- Body of the low shuffle with `r` computed in `unsigned int` and stored in an `int`. -/
def shuffleLowBody_u32 (rand : Nat → Nat) (i : Nat) (s : BuildState) : Option BuildState :=
  (swapCellsInt s.mem i (toInt32 (lowPartner_u32 (rand s.randCalls)))).map
    fun m => ⟨m, s.randCalls + 1⟩

/-- Body of the high shuffle with `r` computed in `unsigned int` and stored in an `int`. -/
def shuffleHighBody_u32 (rand : Nat → Nat) (i : Nat) (s : BuildState) : Option BuildState :=
  (swapCellsInt s.mem i (toInt32 (highPartner_u32 (rand s.randCalls)))).map
    fun m => ⟨m, s.randCalls + 1⟩

/-! ## CountSetBits (lines 21-35) -/

/-- The locals `bitSetCount` and `bitTest`, with the list of the values of `bitTest` that
have been tested against the mask so far, oldest first. -/
structure BitCount where
  /-- The local `bitSetCount`. -/
  bitSetCount : Nat
  /-- The local `bitTest`. -/
  bitTest : Nat
  /-- The values `bitTest` had in the tests `bitMask & bitTest` made so far. -/
  tested : List Nat
deriving DecidableEq

/-- Body of the loop of lines 28-32. -/
def countBody (bitMask : Nat) (s : BitCount) : BitCount :=
  ⟨s.bitSetCount + (if bitMask &&& s.bitTest ≠ 0 then 1 else 0), s.bitTest / 2,
    s.tested ++ [s.bitTest]⟩

/-- The loop `for (i = 0; i <= LSHIFT; ++i)`, given its number of iterations. -/
def countLoop (bitMask : Nat) : Nat → BitCount → BitCount
  | 0, s => s
  | n + 1, s => countLoop bitMask n (countBody bitMask s)

/-- The state of `CountSetBits` at its `return`, where `ptrBytes` is `sizeof(ULONG_PTR)`:
`LSHIFT = ptrBytes * 8 - 1`, `bitTest` starts at `1 << LSHIFT`, and the loop runs for
`i = 0, ..., LSHIFT`. -/
def countSetBitsRun (ptrBytes : Nat) (bitMask : Nat) : BitCount :=
  let LSHIFT := ptrBytes * 8 - 1
  countLoop bitMask (LSHIFT + 1) ⟨0, 1 <<< LSHIFT, []⟩

/-- The function `CountSetBits`. -/
def CountSetBits (ptrBytes : Nat) (bitMask : Nat) : Nat :=
  (countSetBitsRun ptrBytes bitMask).bitSetCount

/-- Population count as the specification words it: the number of binary digits of `m`
that are 1. -/
def popCount (m : Nat) : Nat := (Nat.digits 2 m).sum

/-! ## Draw sequences of the low shuffle -/

/-- The stream of `rand()` results that replays the finite list `ds`. -/
def drawsOf (ds : List Nat) : Nat → Nat := fun k => ds.getD k 0

/-- All sequences of `n` draws, each draw in `[0, H)`. -/
def drawSeqs (H : Nat) : Nat → List (List Nat)
  | 0 => [[]]
  | n + 1 => (List.range H).flatMap fun r => (drawSeqs H n).map fun ds => r :: ds

/-- The low half of the array after the fill loop and the low shuffle run on the draws
`ds`. -/
def lowHalfAfter (H : Nat) (ds : List Nat) : Option (List Nat) :=
  ((fillArray H fun _ => 0).bind fun m => shuffleLow (drawsOf ds) H ⟨m, 0⟩).map
    fun s => s.mem.take H

/-- The number of draw sequences `(r_0, ..., r_{H-1})` in `[0, H)^H` after which the low
half is the arrangement `p`. -/
def producing (H : Nat) (p : List Nat) : Nat :=
  (drawSeqs H H).countP fun ds => decide (lowHalfAfter H ds = some p)

/-- Uniformity of the low shuffle as the specification words it: every arrangement of the
low half's values `H, ..., 2H - 1` is produced by the same number of draw sequences. -/
def UniformLowShuffle (H : Nat) : Prop :=
  ∀ p q : List Nat, p.Perm (List.range' H H) → q.Perm (List.range' H H) →
    producing H p = producing H q

/-! ## Predicates used in the statements -/

/-- Positions `a, ..., a + n - 1` of `m` hold values of `b, ..., b + n - 1`, no value twice
and every value once: position `a + i ↦ m[a + i]` is a bijection onto `[b, b + n)`. -/
def BijOnto (m : List Nat) (a b n : Nat) : Prop :=
  (∀ i, i < n → ∃ v, m[a + i]? = some v ∧ b ≤ v ∧ v < b + n) ∧
  (∀ i j, i < n → j < n → m[a + i]? = m[a + j]? → i = j) ∧
  (∀ v, b ≤ v → v < b + n → ∃ i, i < n ∧ m[a + i]? = some v)

/-- The low half maps bijectively onto `[H, 2H)` and the high half onto `[0, H)`. -/
def CrossHalves (H : Nat) (m : List Nat) : Prop :=
  m.length = 2 * H ∧ BijOnto m 0 H H ∧ BijOnto m H 0 H

/-- The values of the low half are a rearrangement of `H, ..., 2H - 1` and the values of
the high half a rearrangement of `0, ..., H - 1`. -/
def HalvesPerm (H : Nat) (m : List Nat) : Prop :=
  m.length = 2 * H ∧ (m.take H).Perm (List.range' H H) ∧ (m.drop H).Perm (List.range' 0 H)

/-- The map `v ↦ mem[v]`, with `v` itself outside the array. -/
def next (mem : List Nat) (v : Nat) : Nat := mem.getD v v

/-! ## Loops -/

theorem forLoop_zero {σ : Type} (body : Nat → σ → Option σ) (i : Nat) (s : σ) :
    forLoop body 0 i s = some s := rfl

theorem forLoop_succ {σ : Type} (body : Nat → σ → Option σ) (n i : Nat) (s : σ) :
    forLoop body (n + 1) i s = (body i s).bind (forLoop body n (i + 1)) := rfl

/-- Invariant rule: a loop whose body succeeds and re-establishes `Inv` terminates
successfully with `Inv` at the exit index. -/
theorem forLoop_inv {σ : Type} (body : Nat → σ → Option σ) (Inv : Nat → σ → Prop) :
    ∀ (n lo : Nat) (s : σ), Inv lo s →
      (∀ i t, lo ≤ i → i < lo + n → Inv i t → ∃ u, body i t = some u ∧ Inv (i + 1) u) →
      ∃ u, forLoop body n lo s = some u ∧ Inv (lo + n) u := by
  intro n
  induction n with
  | zero => intro lo s h0 _; exact ⟨s, rfl, by simpa using h0⟩
  | succ n ih =>
    intro lo s h0 hstep
    obtain ⟨t, ht, hInv⟩ := hstep lo s (Nat.le_refl _) (by omega) h0
    obtain ⟨u, hu, hI⟩ := ih (lo + 1) t hInv (fun i v h1 h2 h3 =>
      hstep i v (by omega) (by omega) h3)
    refine ⟨u, ?_, ?_⟩
    · rw [forLoop_succ, ht]; exact hu
    · have : lo + (n + 1) = lo + 1 + n := by omega
      rw [this]; exact hI

/-- A loop of `a + b` iterations is a loop of `a` followed by a loop of `b`. -/
theorem forLoop_add {σ : Type} (body : Nat → σ → Option σ) :
    ∀ (a b lo : Nat) (s : σ),
      forLoop body (a + b) lo s = (forLoop body a lo s).bind (forLoop body b (lo + a)) := by
  intro a
  induction a with
  | zero => intro b lo s; simp [forLoop_zero]
  | succ a ih =>
    intro b lo s
    have h1 : a + 1 + b = (a + b) + 1 := by omega
    rw [h1, forLoop_succ, forLoop_succ]
    cases hb : body lo s with
    | none => simp
    | some t =>
      simp only [Option.some_bind]
      rw [ih b (lo + 1) t]
      have h2 : lo + 1 + a = lo + (a + 1) := by omega
      rw [h2]

/-! ## Array cells -/

theorem writeAt_of_lt {α : Type} (a : List α) (i : Nat) (v : α) (h : i < a.length) :
    writeAt a i v = some (a.set i v) := by
  simp [writeAt, h]

theorem length_allocCells {α : Type} (n : Nat) (junk : Nat → α) :
    (allocCells n junk).length = n := by
  simp [allocCells]

theorem swapCells_of_some (m : List Nat) (i r x y : Nat) (hi : m[i]? = some y)
    (hr : m[r]? = some x) : swapCells m i r = some ((m.set i x).set r y) := by
  have h1 : i < m.length := (List.getElem?_eq_some_iff.mp hi).1
  have h2 : r < m.length := (List.getElem?_eq_some_iff.mp hr).1
  simp [swapCells, hi, hr, writeAt, h1, h2]

/-- Exchanging two cells rearranges the list. -/
theorem swap_perm (m : List Nat) (i r x y : Nat) (hi : m[i]? = some y)
    (hr : m[r]? = some x) : ((m.set i x).set r y).Perm m := by
  obtain ⟨h1, rfl⟩ := List.getElem?_eq_some_iff.mp hi
  obtain ⟨h2, rfl⟩ := List.getElem?_eq_some_iff.mp hr
  rw [List.perm_iff_count]
  intro b
  have hr2 : r < (m.set i m[r]).length := by simpa using h2
  rw [List.count_set _ _ _ _ hr2, List.count_set _ _ _ _ h1]
  have hget : (m.set i m[r])[r] = m[r] := by
    simp [List.getElem_set]
  rw [hget]
  have hpos : (if m[i] == b then 1 else 0) ≤ List.count b m := by
    split
    · next h =>
      have hb : m[i] = b := by simpa using h
      have : b ∈ m := hb ▸ List.getElem_mem h1
      exact List.count_pos_iff.mpr this
    · exact Nat.zero_le _
  by_cases h1 : (m[i] == b) = true <;> by_cases h2 : (m[r] == b) = true <;>
    simp only [h1, h2, if_true, if_false] at hpos ⊢ <;> omega

/-! ## The fill loop -/

/-- The fill loop succeeds and leaves `H, ..., 2H - 1, 0, ..., H - 1`, whatever the fresh
cells held. -/
theorem fillArray_eq (H : Nat) (junk : Nat → Nat) :
    fillArray H junk = some (List.range' H H ++ List.range' 0 H) := by
  obtain ⟨m, hm, hlen, hInv⟩ := forLoop_inv (fillBody H)
    (fun i m => m.length = 2 * H ∧ ∀ j, j < i → m[j]? = some (j + H) ∧ m[j + H]? = some j)
    H 0 (allocCells (arraySize H) junk)
    ⟨by simp [length_allocCells, arraySize]; omega, fun j hj => absurd hj (Nat.not_lt_zero j)⟩
    (by
      intro i t _ hi ⟨hlen, hInv⟩
      have h1 : i < t.length := by omega
      have h2 : i + H < (t.set i (i + H)).length := by simp; omega
      refine ⟨(t.set i (i + H)).set (i + H) i, ?_, by simp [hlen], ?_⟩
      · simp [fillBody, writeAt, h1]; omega
      · intro j hj
        by_cases hji : j = i
        · subst hji
          have hne : j + H ≠ j := by omega
          constructor
          · rw [List.getElem?_set_ne hne, List.getElem?_set_self h1]
          · rw [List.getElem?_set_self h2]
        · have hj2 : j < i := by omega
          obtain ⟨ha, hb⟩ := hInv j hj2
          constructor
          · rw [List.getElem?_set_ne (by omega), List.getElem?_set_ne (by omega)]; exact ha
          · rw [List.getElem?_set_ne (by omega), List.getElem?_set_ne (by omega)]; exact hb)
  rw [fillArray, hm]
  congr 1
  apply List.ext_getElem?
  intro k
  simp only [Nat.zero_add] at hInv
  by_cases hk : k < H
  · rw [(hInv k hk).1, List.getElem?_append_left (by simpa using hk),
      List.getElem?_range' H 1 hk]
    simp; omega
  · by_cases hk2 : k < 2 * H
    · have := (hInv (k - H) (by omega)).2
      rw [show k - H + H = k by omega] at this
      rw [this, List.getElem?_append_right (by simp; omega)]
      simp only [List.length_range']
      rw [List.getElem?_range' 0 1 (show k - H < H by omega)]
      simp
    · rw [List.getElem?_eq_none (by omega), List.getElem?_eq_none (by simp; omega)]

theorem halvesPerm_fill (H : Nat) : HalvesPerm H (List.range' H H ++ List.range' 0 H) := by
  refine ⟨by simp; omega, ?_, ?_⟩
  · rw [List.take_left' (by simp)]
  · rw [List.drop_left' (by simp)]

/-! ## The shuffles -/

theorem halvesPerm_swap_low (H : Nat) (m : List Nat) (i r : Nat) (h : HalvesPerm H m)
    (hi : i < H) (hr : r < H) :
    ∃ m2, swapCells m i r = some m2 ∧ HalvesPerm H m2 := by
  obtain ⟨hlen, hlo, hhi⟩ := h
  have h1 : i < m.length := by omega
  have h2 : r < m.length := by omega
  have e1 : m[i]? = some m[i] := List.getElem?_eq_getElem h1
  have e2 : m[r]? = some m[r] := List.getElem?_eq_getElem h2
  refine ⟨_, swapCells_of_some m i r _ _ e1 e2, by simp [hlen], ?_, ?_⟩
  · rw [List.set_take, List.set_take]
    refine (swap_perm (m.take H) i r _ _ ?_ ?_).trans hlo
    · rw [List.getElem?_take_of_lt hi]; exact e1
    · rw [List.getElem?_take_of_lt hr]; exact e2
  · rw [List.drop_set_of_lt _ _ hr, List.drop_set_of_lt _ _ hi]; exact hhi

theorem halvesPerm_swap_high (H : Nat) (m : List Nat) (i r : Nat) (h : HalvesPerm H m)
    (hi : H ≤ i) (hi2 : i < 2 * H) (hr : H ≤ r) (hr2 : r < 2 * H) :
    ∃ m2, swapCells m i r = some m2 ∧ HalvesPerm H m2 := by
  obtain ⟨hlen, hlo, hhi⟩ := h
  have h1 : i < m.length := by omega
  have h2 : r < m.length := by omega
  have e1 : m[i]? = some m[i] := List.getElem?_eq_getElem h1
  have e2 : m[r]? = some m[r] := List.getElem?_eq_getElem h2
  refine ⟨_, swapCells_of_some m i r _ _ e1 e2, by simp [hlen], ?_, ?_⟩
  · rw [List.set_take, List.set_take,
      List.set_eq_of_length_le (l := m.take H) (by simp; omega),
      List.set_eq_of_length_le (by simp; omega)]
    exact hlo
  · rw [List.drop_set, if_neg (by omega), List.drop_set, if_neg (by omega)]
    refine (swap_perm (m.drop H) (i - H) (r - H) _ _ ?_ ?_).trans hhi
    · rw [List.getElem?_drop, show H + (i - H) = i by omega]; exact e1
    · rw [List.getElem?_drop, show H + (r - H) = r by omega]; exact e2

theorem shuffleLow_halvesPerm (rand : Nat → Nat) (H : Nat) (s : BuildState)
    (h : HalvesPerm H s.mem) :
    ∃ u, shuffleLow rand H s = some u ∧ HalvesPerm H u.mem := by
  obtain ⟨u, hu, hI⟩ := forLoop_inv (shuffleLowBody rand H) (fun _ t => HalvesPerm H t.mem)
    H 0 s h (by
      intro i t _ hi hInv
      have hH : 0 < H := by omega
      obtain ⟨m2, hm2, hP⟩ := halvesPerm_swap_low H t.mem i (rand t.randCalls % H) hInv
        (by omega) (Nat.mod_lt _ hH)
      exact ⟨⟨m2, t.randCalls + 1⟩, by simp [shuffleLowBody, hm2], hP⟩)
  exact ⟨u, hu, hI⟩

theorem shuffleHigh_halvesPerm (rand : Nat → Nat) (H : Nat) (s : BuildState)
    (h : HalvesPerm H s.mem) :
    ∃ u, shuffleHigh rand H s = some u ∧ HalvesPerm H u.mem := by
  obtain ⟨u, hu, hI⟩ := forLoop_inv (shuffleHighBody rand H) (fun _ t => HalvesPerm H t.mem)
    (arraySize H - H) H s h (by
      intro i t h1 hi hInv
      have hH : 0 < H := by simp [arraySize] at hi; omega
      have hi2 : i < 2 * H := by simp [arraySize] at hi; omega
      have hr := Nat.mod_lt (rand t.randCalls) hH
      obtain ⟨m2, hm2, hP⟩ := halvesPerm_swap_high H t.mem i (rand t.randCalls % H + H) hInv
        h1 hi2 (by omega) (by omega)
      exact ⟨⟨m2, t.randCalls + 1⟩, by simp [shuffleHighBody, hm2], hP⟩)
  exact ⟨u, hu, hI⟩

/-- The builder succeeds for every half size, draw sequence and initial cell content, and
its array satisfies the rearrangement invariant. -/
theorem buildArray_halvesPerm (H : Nat) (rand junk : Nat → Nat) :
    ∃ s, buildArray H rand junk = some s ∧ HalvesPerm H s.mem := by
  obtain ⟨s1, h1, hP1⟩ := shuffleLow_halvesPerm rand H
    ⟨List.range' H H ++ List.range' 0 H, 0⟩ (halvesPerm_fill H)
  obtain ⟨s2, h2, hP2⟩ := shuffleHigh_halvesPerm rand H s1 hP1
  exact ⟨s2, by simp [buildArray, fillArray_eq, h1, h2], hP2⟩

/-! ## From rearrangements to bijections -/

/-- A window of `m` that is a rearrangement of `b, ..., b + n - 1` maps its positions
bijectively onto that range. -/
theorem bijOnto_of_perm (m : List Nat) (a b n : Nat) (hlen : a + n ≤ m.length)
    (hp : ((m.drop a).take n).Perm (List.range' b n)) : BijOnto m a b n := by
  have hl : ((m.drop a).take n).length = n := by simp; omega
  have hget : ∀ i, i < n → ((m.drop a).take n)[i]? = m[a + i]? := by
    intro i hi
    rw [List.getElem?_take_of_lt hi, List.getElem?_drop]
  have hnd : ((m.drop a).take n).Nodup := (hp.nodup_iff).mpr (List.nodup_range' b n)
  refine ⟨?_, ?_, ?_⟩
  · intro i hi
    have h1 : a + i < m.length := by omega
    refine ⟨m[a + i], List.getElem?_eq_getElem h1, ?_⟩
    have hmem : m[a + i] ∈ (m.drop a).take n := by
      rw [List.mem_iff_getElem?]
      exact ⟨i, by rw [hget i hi]; exact List.getElem?_eq_getElem h1⟩
    simpa using (hp.mem_iff).mp hmem
  · intro i j hi hj hij
    exact List.getElem?_inj (by omega) hnd (by rw [hget i hi, hget j hj]; exact hij)
  · intro v hv1 hv2
    have hmem : v ∈ (m.drop a).take n := (hp.mem_iff).mpr (by simp; omega)
    obtain ⟨i, hi⟩ := List.mem_iff_getElem?.mp hmem
    have hi2 : i < n := by
      have := (List.getElem?_eq_some_iff.mp hi).1
      omega
    exact ⟨i, hi2, by rw [← hget i hi2]; exact hi⟩

theorem crossHalves_of_halvesPerm (H : Nat) (m : List Nat) (h : HalvesPerm H m) :
    CrossHalves H m := by
  obtain ⟨hlen, hlo, hhi⟩ := h
  refine ⟨hlen, bijOnto_of_perm m 0 H H (by omega) (by simpa using hlo), ?_⟩
  refine bijOnto_of_perm m H 0 H (by omega) ?_
  rw [List.take_of_length_le (by simp; omega)]
  exact hhi

theorem perm_range_of_halvesPerm (H : Nat) (m : List Nat) (h : HalvesPerm H m) :
    m.Perm (List.range (2 * H)) := by
  obtain ⟨_, hlo, hhi⟩ := h
  have h1 : m.Perm (List.range' H H ++ List.range' 0 H) := by
    have := hlo.append hhi
    rwa [List.take_append_drop] at this
  refine h1.trans (List.perm_append_comm.trans ?_)
  rw [List.range_eq_range']
  have : List.range' 0 H ++ List.range' H H = List.range' 0 (H + H) := by
    have := List.range'_append_1 0 H H
    simpa using this
  rw [this, show H + H = 2 * H by omega]

/-- In an array with the invariant, a low index holds a high value. -/
theorem halvesPerm_low (H : Nat) (m : List Nat) (h : HalvesPerm H m) (v : Nat) (hv : v < H) :
    ∃ u, m[v]? = some u ∧ H ≤ u ∧ u < 2 * H := by
  obtain ⟨u, hu, h1, h2⟩ := (crossHalves_of_halvesPerm H m h).2.1.1 v hv
  exact ⟨u, by simpa using hu, h1, by omega⟩

/-- In an array with the invariant, a high index holds a low value. -/
theorem halvesPerm_high (H : Nat) (m : List Nat) (h : HalvesPerm H m) (v : Nat)
    (hv : H ≤ v) (hv2 : v < 2 * H) : ∃ u, m[v]? = some u ∧ u < H := by
  obtain ⟨u, hu, _, h2⟩ := (crossHalves_of_halvesPerm H m h).2.2.1 (v - H) (by omega)
  exact ⟨u, by rw [show H + (v - H) = v by omega] at hu; exact hu, by omega⟩

/-- Every cell of an array with the invariant holds an index of the array. -/
theorem halvesPerm_closed (H : Nat) (m : List Nat) (h : HalvesPerm H m) (v : Nat)
    (hv : v < m.length) : ∃ u, m[v]? = some u ∧ u < m.length := by
  have hlen := h.1
  by_cases hlow : v < H
  · obtain ⟨u, hu, _, h2⟩ := halvesPerm_low H m h v hlow
    exact ⟨u, hu, by omega⟩
  · obtain ⟨u, hu, h2⟩ := halvesPerm_high H m h v (by omega) (by omega)
    exact ⟨u, hu, by omega⟩

/-! ## The walk -/

theorem next_of_some (mem : List Nat) (v u : Nat) (h : mem[v]? = some u) : next mem v = u := by
  simp [next, h]

/-- On an array all of whose cells hold indices of the array, `k` walk steps succeed, apply
`next` exactly `k` times and stay inside the array. -/
theorem forLoop_walkStep (mem : List Nat)
    (hclosed : ∀ v, v < mem.length → ∃ u, mem[v]? = some u ∧ u < mem.length) :
    ∀ (k i : Nat) (w : WalkState), w.value < mem.length →
      forLoop (walkStep mem) k i w = some ⟨(next mem)^[k] w.value, w.steps + k⟩ ∧
      (next mem)^[k] w.value < mem.length := by
  intro k
  induction k with
  | zero => intro i w hw; exact ⟨rfl, hw⟩
  | succ k ih =>
    intro i w hw
    obtain ⟨u, hu, hu2⟩ := hclosed w.value hw
    obtain ⟨h1, h2⟩ := ih (i + 1) ⟨u, w.steps + 1⟩ hu2
    have hn : next mem w.value = u := next_of_some mem _ _ hu
    rw [Function.iterate_succ_apply, hn]
    refine ⟨?_, h2⟩
    rw [forLoop_succ]
    simp only [walkStep, hu, Option.map_some', Option.some_bind]
    rw [h1]
    simp only [Option.some.injEq, WalkState.mk.injEq, true_and]
    omega

/-- The warm-up phase: `n` outer iterations perform `n * (N / 8192)` walk steps. -/
theorem forLoop_warmUpBody (N : Nat) (mem : List Nat)
    (hclosed : ∀ v, v < mem.length → ∃ u, mem[v]? = some u ∧ u < mem.length) :
    ∀ (n i : Nat) (w : WalkState), w.value < mem.length →
      forLoop (warmUpBody N mem) n i w
        = some ⟨(next mem)^[n * (N / 8192)] w.value, w.steps + n * (N / 8192)⟩ ∧
      (next mem)^[n * (N / 8192)] w.value < mem.length := by
  intro n
  induction n with
  | zero => intro i w hw; simpa [forLoop_zero] using hw
  | succ n ih =>
    intro i w hw
    obtain ⟨h1, h2⟩ := forLoop_walkStep mem hclosed (N / 8192) 0 w hw
    obtain ⟨h3, h4⟩ := ih (i + 1) ⟨(next mem)^[N / 8192] w.value, w.steps + N / 8192⟩ h2
    have hmul : (n + 1) * (N / 8192) = n * (N / 8192) + N / 8192 := by
      rw [Nat.add_mul, Nat.one_mul]
    rw [hmul, Function.iterate_add_apply]
    refine ⟨?_, h4⟩
    rw [forLoop_succ]
    simp only [warmUpBody, h1, Option.some_bind]
    have h5 : forLoop (warmUpBody N mem) n (i + 1)
        ⟨(next mem)^[N / 8192] w.value, w.steps + N / 8192⟩ = _ := h3
    simp only [warmUpBody] at h5
    rw [h5]
    simp only [Option.some.injEq, WalkState.mk.injEq, true_and]
    omega

/-- The walk of `k` steps from `mem[0]` on an array with the invariant. -/
theorem walk_eq (H : Nat) (m : List Nat) (h : HalvesPerm H m) (hH : 1 ≤ H) (k : Nat) :
    walk m k = some ⟨(next m)^[k] (next m 0), k⟩ ∧ (next m)^[k] (next m 0) < m.length := by
  have hlen := h.1
  obtain ⟨u, hu, hu2⟩ := halvesPerm_closed H m h 0 (by omega)
  obtain ⟨h1, h2⟩ := forLoop_walkStep m (halvesPerm_closed H m h) k 0 ⟨u, 0⟩ hu2
  rw [next_of_some m 0 u hu]
  refine ⟨?_, h2⟩
  simp only [walk, hu, Option.some_bind]
  rw [h1]
  simp

/-- Parity of the walk: after an even number of steps the value is in the high half, after
an odd number in the low half. -/
theorem walk_parity (H : Nat) (m : List Nat) (h : HalvesPerm H m) (hH : 1 ≤ H) :
    ∀ k, (k % 2 = 0 → H ≤ (next m)^[k] (next m 0) ∧ (next m)^[k] (next m 0) < 2 * H) ∧
         (k % 2 = 1 → (next m)^[k] (next m 0) < H) := by
  intro k
  induction k with
  | zero =>
    obtain ⟨u, hu, h1, h2⟩ := halvesPerm_low H m h 0 (by omega)
    simp [next_of_some m 0 u hu, h1, h2]
  | succ k ih =>
    rw [Function.iterate_succ_apply']
    constructor
    · intro hk
      obtain ⟨u, hu, h1, h2⟩ := halvesPerm_low H m h _ (ih.2 (by omega))
      rw [next_of_some m _ u hu]; exact ⟨h1, h2⟩
    · intro hk
      obtain ⟨h3, h4⟩ := ih.1 (by omega)
      obtain ⟨u, hu, h1⟩ := halvesPerm_high H m h _ h3 h4
      rw [next_of_some m _ u hu]; exact h1

/-! ## The stress array and the walk: main results -/

/-- C1. For every half size `H` and every sequence of draws (and whatever the fresh cells
held), allocation, fill loop, low shuffle and high shuffle succeed and give an array of
`2H` cells without fixed point: every index `i < 2H` holds a value different from `i`. -/
theorem buildArray_no_fixed_point (H : Nat) (rand junk : Nat → Nat) :
    ∃ s, buildArray H rand junk = some s ∧ s.mem.length = arraySize H ∧
      ∀ i, i < arraySize H → ∃ v, s.mem[i]? = some v ∧ v ≠ i := by
  obtain ⟨s, hs, hP⟩ := buildArray_halvesPerm H rand junk
  have hlen := hP.1
  refine ⟨s, hs, by simp [arraySize]; omega, ?_⟩
  intro i hi
  simp only [arraySize] at hi
  by_cases hlow : i < H
  · obtain ⟨u, hu, h1, _⟩ := halvesPerm_low H s.mem hP i hlow
    exact ⟨u, hu, by omega⟩
  · obtain ⟨u, hu, h1⟩ := halvesPerm_high H s.mem hP i (by omega) (by omega)
    exact ⟨u, hu, by omega⟩

/-- C2. For every half size `H` and every sequence of draws, the array directly after the
fill loop (`m0`) and the array after both shuffles (`s.mem`) both map the low half
bijectively onto `[H, 2H)` and the high half bijectively onto `[0, H)`, and both are
rearrangements of `0, ..., 2H - 1`. -/
theorem buildArray_cross_halves (H : Nat) (rand junk : Nat → Nat) :
    ∃ m0 s, fillArray H junk = some m0 ∧
      (shuffleLow rand H ⟨m0, 0⟩).bind (shuffleHigh rand H) = some s ∧
      buildArray H rand junk = some s ∧
      CrossHalves H m0 ∧ m0.Perm (List.range (2 * H)) ∧
      CrossHalves H s.mem ∧ s.mem.Perm (List.range (2 * H)) := by
  obtain ⟨s1, h1, hP1⟩ := shuffleLow_halvesPerm rand H
    ⟨List.range' H H ++ List.range' 0 H, 0⟩ (halvesPerm_fill H)
  obtain ⟨s2, h2, hP2⟩ := shuffleHigh_halvesPerm rand H s1 hP1
  refine ⟨_, s2, fillArray_eq H junk, by simp [h1, h2],
    by simp [buildArray, fillArray_eq, h1, h2],
    crossHalves_of_halvesPerm H _ (halvesPerm_fill H),
    perm_range_of_halvesPerm H _ (halvesPerm_fill H),
    crossHalves_of_halvesPerm H _ hP2, perm_range_of_halvesPerm H _ hP2⟩

/-- C3. For every half size `H ≥ 1` and every sequence of draws, the walk
`value = mem[0]` followed by any number `k` of steps `value = mem[value]` over the built
array succeeds, that is, every lookup takes the in-range branch, and the value it ends
with is an index of the array (so the next read is in range as well). -/
theorem walk_in_bounds (H : Nat) (rand junk : Nat → Nat) (hH : 1 ≤ H) :
    ∃ s, buildArray H rand junk = some s ∧ s.mem.length = arraySize H ∧
      ∀ k, ∃ w, walk s.mem k = some w ∧ w.steps = k ∧ w.value < arraySize H := by
  obtain ⟨s, hs, hP⟩ := buildArray_halvesPerm H rand junk
  have hlen : s.mem.length = arraySize H := by have := hP.1; simp [arraySize]; omega
  refine ⟨s, hs, hlen, fun k => ?_⟩
  obtain ⟨h1, h2⟩ := walk_eq H s.mem hP hH k
  exact ⟨_, h1, rfl, by rw [← hlen]; exact h2⟩

/-- Witness of C3 at `H = 8` (an array of 16 cells). -/
theorem walk_in_bounds_witness :
    1 ≤ 8 ∧ ∃ s, buildArray 8 (fun k => k * k + 5) (fun _ => 0) = some s ∧
      s.mem.length = arraySize 8 ∧
      ∀ k, ∃ w, walk s.mem k = some w ∧ w.steps = k ∧ w.value < arraySize 8 :=
  ⟨by decide, walk_in_bounds 8 (fun k => k * k + 5) (fun _ => 0) (by decide)⟩

/-- C9. On an array of `N > 0` cells that all hold indices of the array, `runTest` reads
`mem[0]`, performs `100 * (N / 8192)` walk steps in its warm-up loop (100 outer iterations
of `N / 8192` steps) and then `N` more, and returns the value obtained from `mem[0]` by
`100 * (N / 8192) + N` applications of `v ↦ mem[v]`; the array it leaves is the array it
was given. -/
theorem runTest_step_count (N : Nat) (mem : List Nat) (core : Int)
    (hlen : mem.length = N) (hpos : 0 < N)
    (hclosed : ∀ v, v < N → ∃ u, mem[v]? = some u ∧ u < N) :
    mem[0]? = some (next mem 0) ∧
    forLoop (warmUpBody N mem) 100 0 ⟨next mem 0, 0⟩
      = some ⟨(next mem)^[100 * (N / 8192)] (next mem 0), 100 * (N / 8192)⟩ ∧
    forLoop (walkStep mem) N 0 ⟨(next mem)^[100 * (N / 8192)] (next mem 0), 100 * (N / 8192)⟩
      = some ⟨(next mem)^[100 * (N / 8192) + N] (next mem 0), 100 * (N / 8192) + N⟩ ∧
    runTest N mem core
      = some (mem, ⟨(next mem)^[100 * (N / 8192) + N] (next mem 0), 100 * (N / 8192) + N⟩) := by
  subst hlen
  obtain ⟨u, hu, hu2⟩ := hclosed 0 hpos
  have hn : next mem 0 = u := next_of_some mem 0 u hu
  obtain ⟨h1, h2⟩ := forLoop_warmUpBody mem.length mem hclosed 100 0 ⟨u, 0⟩ hu2
  obtain ⟨h3, _⟩ := forLoop_walkStep mem hclosed mem.length 0
    ⟨(next mem)^[100 * (mem.length / 8192)] u, 100 * (mem.length / 8192)⟩ h2
  simp only [Nat.zero_add] at h1
  have hit : (next mem)^[mem.length] ((next mem)^[100 * (mem.length / 8192)] u)
      = (next mem)^[100 * (mem.length / 8192) + mem.length] u := by
    rw [Nat.add_comm, Function.iterate_add_apply]
  rw [hit] at h3
  rw [hn]
  refine ⟨hu, h1, h3, ?_⟩
  simp only [runTest, hu, Option.some_bind, h1, h3, Option.map_some']

/-- Witness of C9 on the array `8192, ..., 16383, 0, ..., 8191` of 16384 cells, where each
warm-up iteration performs two steps. -/
theorem runTest_step_count_witness :
    (List.range' 8192 8192 ++ List.range' 0 8192).length = 16384 ∧ 0 < 16384 ∧
    runTest 16384 (List.range' 8192 8192 ++ List.range' 0 8192) 0
      = some (List.range' 8192 8192 ++ List.range' 0 8192,
          ⟨(next (List.range' 8192 8192 ++ List.range' 0 8192))^[100 * (16384 / 8192) + 16384]
            (next (List.range' 8192 8192 ++ List.range' 0 8192) 0),
           100 * (16384 / 8192) + 16384⟩) :=
  have hlen : (List.range' 8192 8192 ++ List.range' 0 8192).length = 16384 := by simp
  ⟨hlen, by decide,
    (runTest_step_count 16384 (List.range' 8192 8192 ++ List.range' 0 8192) 0 hlen (by decide)
      (fun v hv => by
        have := halvesPerm_closed 8192 _ (halvesPerm_fill 8192) v (by rw [hlen]; exact hv)
        rwa [hlen] at this)).2.2.2⟩

/-- C10. In every built array (`H ≥ 1`) a low index holds a high value and a high index a
low value; hence the walk from `mem[0]` is in the high half after `k` steps exactly when
`k` is even, and the value after `k + 1` steps differs from the value after `k` steps. -/
theorem walk_alternates (H : Nat) (rand junk : Nat → Nat) (hH : 1 ≤ H) :
    ∃ s, buildArray H rand junk = some s ∧
      (∀ v, v < H → ∃ u, s.mem[v]? = some u ∧ H ≤ u ∧ u < arraySize H) ∧
      (∀ v, H ≤ v → v < arraySize H → ∃ u, s.mem[v]? = some u ∧ u < H) ∧
      ∀ k, ∃ w w2, walk s.mem k = some w ∧ walk s.mem (k + 1) = some w2 ∧
        w.value < arraySize H ∧ (H ≤ w.value ↔ k % 2 = 0) ∧ w2.value ≠ w.value := by
  obtain ⟨s, hs, hP⟩ := buildArray_halvesPerm H rand junk
  refine ⟨s, hs, ?_, ?_, ?_⟩
  · intro v hv
    obtain ⟨u, hu, h1, h2⟩ := halvesPerm_low H s.mem hP v hv
    exact ⟨u, hu, h1, by simp [arraySize]; omega⟩
  · intro v hv hv2
    exact halvesPerm_high H s.mem hP v hv (by simp [arraySize] at hv2; omega)
  · intro k
    obtain ⟨h1, _⟩ := walk_eq H s.mem hP hH k
    obtain ⟨h2, _⟩ := walk_eq H s.mem hP hH (k + 1)
    obtain ⟨pe, po⟩ := walk_parity H s.mem hP hH k
    obtain ⟨qe, qo⟩ := walk_parity H s.mem hP hH (k + 1)
    refine ⟨_, _, h1, h2, ?_, ?_, ?_⟩
    · show (next s.mem)^[k] (next s.mem 0) < arraySize H
      rcases Nat.mod_two_eq_zero_or_one k with hk | hk
      · have := (pe hk).2; simp [arraySize]; omega
      · have := po hk; simp [arraySize]; omega
    · show H ≤ (next s.mem)^[k] (next s.mem 0) ↔ k % 2 = 0
      constructor
      · intro hge
        rcases Nat.mod_two_eq_zero_or_one k with hk | hk
        · exact hk
        · have := po hk; omega
      · intro hk; exact (pe hk).1
    · show (next s.mem)^[k + 1] (next s.mem 0) ≠ (next s.mem)^[k] (next s.mem 0)
      rcases Nat.mod_two_eq_zero_or_one k with hk | hk
      · have := (pe hk).1; have := qo (by omega); omega
      · have := po hk; have := (qe (by omega)).1; omega

/-- Witness of C10 at `H = 8` (an array of 16 cells). -/
theorem walk_alternates_witness :
    1 ≤ 8 ∧ ∃ s, buildArray 8 (fun k => k * k + 5) (fun _ => 0) = some s ∧
      (∀ v, v < 8 → ∃ u, s.mem[v]? = some u ∧ 8 ≤ u ∧ u < arraySize 8) ∧
      (∀ v, 8 ≤ v → v < arraySize 8 → ∃ u, s.mem[v]? = some u ∧ u < 8) ∧
      ∀ k, ∃ w w2, walk s.mem k = some w ∧ walk s.mem (k + 1) = some w2 ∧
        w.value < arraySize 8 ∧ (8 ≤ w.value ↔ k % 2 = 0) ∧ w2.value ≠ w.value :=
  ⟨by decide, walk_alternates 8 (fun k => k * k + 5) (fun _ => 0) (by decide)⟩

/-! ## Thread assignment -/

/-- A loop that writes `f core` into cell `core` for every `core < n` fills an array of `n`
cells with `f 0, ..., f (n - 1)`. -/
theorem forLoop_writeAt_all (f : Nat → Int) (n : Nat) (arr : List Int) (h : arr.length = n) :
    forLoop (fun core a => writeAt a core (f core)) n 0 arr = some ((List.range n).map f) := by
  obtain ⟨a, ha, hlen, hInv⟩ := forLoop_inv (fun core a => writeAt a core (f core))
    (fun i a => a.length = n ∧ ∀ j, j < i → a[j]? = some (f j)) n 0 arr
    ⟨h, fun j hj => absurd hj (Nat.not_lt_zero j)⟩
    (by
      intro i t _ hi ⟨hlen, hInv⟩
      have h1 : i < t.length := by omega
      refine ⟨t.set i (f i), writeAt_of_lt t i _ h1, by simp [hlen], ?_⟩
      intro j hj
      by_cases hji : j = i
      · subst hji; rw [List.getElem?_set_self h1]
      · rw [List.getElem?_set_ne (by omega)]; exact hInv j (by omega))
  rw [ha]
  congr 1
  apply List.ext_getElem?
  intro k
  simp only [Nat.zero_add] at hInv
  by_cases hk : k < n
  · rw [hInv k hk, List.getElem?_map, List.getElem?_range hk]; rfl
  · rw [List.getElem?_eq_none (by omega), List.getElem?_eq_none (by simp; omega)]

theorem allocInts_of_nonneg (n : Int) (junk : Nat → Int) (h : 0 ≤ n) :
    allocInts n junk = some (allocCells n.toNat junk) := by
  simp [allocInts, h]

/-- The asymmetric branch when the guard of line 230 holds. -/
theorem assignThreads_asymmetric (t : Topology) (junk : Nat → Int) (jwo jw : Int)
    (hasym : t.hasAsymmetricalCoreThreads = true) (hp : 0 ≤ t.physicalCoreCount)
    (hguard : t.physicalCoreCount * 2 - t.logicalCoreCount > 0) :
    assignThreads t junk jwo jw = some
      ⟨(List.range t.physicalCoreCount.toNat).map fun (core : Nat) =>
          if (core : Int) < t.physicalCoreCount
              - (t.physicalCoreCount * 2 - t.logicalCoreCount) then 2 else 1,
        t.physicalCoreCount * 2 - t.logicalCoreCount,
        t.physicalCoreCount - (t.physicalCoreCount * 2 - t.logicalCoreCount)⟩ := by
  have hloop := forLoop_writeAt_all
    (fun (core : Nat) => if (core : Int) < t.physicalCoreCount
      - (t.physicalCoreCount * 2 - t.logicalCoreCount) then 2 else 1)
    t.physicalCoreCount.toNat (allocCells t.physicalCoreCount.toNat junk)
    (length_allocCells _ _)
  simp only [assignThreads, allocInts_of_nonneg _ _ hp, Option.some_bind, hasym, if_true,
    hguard]
  unfold asymmetricBody
  rw [hloop]
  rfl

/-- The asymmetric branch when the guard of line 230 fails: the array keeps the content it
had when it was allocated. -/
theorem assignThreads_asymmetric_skip (t : Topology) (junk : Nat → Int) (jwo jw : Int)
    (hasym : t.hasAsymmetricalCoreThreads = true) (hp : 0 ≤ t.physicalCoreCount)
    (hguard : ¬ t.physicalCoreCount * 2 - t.logicalCoreCount > 0) :
    assignThreads t junk jwo jw = some
      ⟨allocCells t.physicalCoreCount.toNat junk,
        t.physicalCoreCount * 2 - t.logicalCoreCount,
        t.physicalCoreCount - (t.physicalCoreCount * 2 - t.logicalCoreCount)⟩ := by
  simp only [assignThreads, allocInts_of_nonneg _ _ hp, Option.some_bind, hasym, if_true,
    hguard, if_false]

/-- The symmetric branch. -/
theorem assignThreads_symmetric (t : Topology) (junk : Nat → Int) (jwo jw : Int)
    (hsym : t.hasAsymmetricalCoreThreads = false) (hp : 0 ≤ t.physicalCoreCount) :
    assignThreads t junk jwo jw = some
      ⟨(List.range t.physicalCoreCount.toNat).map fun _ =>
          if t.isHyperThreadingEnabled then 2 else 1, jwo, jw⟩ := by
  have hloop := forLoop_writeAt_all (fun _ => if t.isHyperThreadingEnabled then 2 else 1)
    t.physicalCoreCount.toNat (allocCells t.physicalCoreCount.toNat junk)
    (length_allocCells _ _)
  simp only [assignThreads, allocInts_of_nonneg _ _ hp, Option.some_bind, hsym]
  unfold symmetricBody
  rw [hloop]
  rfl

/-- Lookup in an array filled by `forLoop_writeAt_all`. -/
theorem getElem?_range_map (f : Nat → Int) (p : Int) (core : Nat) (h : (core : Int) < p) :
    ((List.range p.toNat).map f)[core]? = some (f core) := by
  have : core < p.toNat := by omega
  rw [List.getElem?_map, List.getElem?_range this]; rfl

/-- Sum of an array whose first `w` entries are 2 and whose other entries are 1. -/
theorem sum_two_tier (w : Int) (n : Nat) :
    ((List.range n).map fun (core : Nat) => if (core : Int) < w then (2 : Int) else 1).sum
      = n + min (max w 0) n := by
  induction n with
  | zero => simp
  | succ n ih =>
    rw [List.range_succ, List.map_append, List.sum_append, ih]
    simp only [List.map_cons, List.map_nil, List.sum_cons, List.sum_nil]
    split <;> omega

theorem cpuValue_of_some (t : Topology) (c : CoreLayout) (core : Nat) (threads : Int)
    (h : c.threadsPerCoreArray[core]? = some threads) :
    cpuValue t c core = some
      (if t.hasAsymmetricalCoreThreads && decide ((core : Int) > c.numCoresWithHyperThreading - 1)
       then c.numCoresWithHyperThreading * 2 - 1
          + ((core : Int) - (c.numCoresWithHyperThreading - 1))
       else (core : Int) * threads) := by
  simp [cpuValue, h]

/-! ## Topology: main results -/

/-- C4. In the asymmetric case (`p < l < 2p`, asymmetric flag set) the assignment computes
`numCoresWithoutHyperThreading = 2p - l` and `numCoresWithHyperThreading = p - (2p - l)
= l - p`, and writes 2 into the cells `core < l - p` and 1 into the other cells below `p`.
For `p = 24`, `l = 32` the two counts are 16 and 8, the array is eight 2s followed by
sixteen 1s, and the unit selected for core 8 is 16. -/
theorem asymmetric_assignment :
    (∀ (t : Topology) (junk : Nat → Int) (jwo jw : Int),
      t.hasAsymmetricalCoreThreads = true →
      t.physicalCoreCount < t.logicalCoreCount →
      t.logicalCoreCount < 2 * t.physicalCoreCount →
      ∃ c, assignThreads t junk jwo jw = some c ∧
        c.numCoresWithoutHyperThreading = 2 * t.physicalCoreCount - t.logicalCoreCount ∧
        c.numCoresWithHyperThreading
          = t.physicalCoreCount - (2 * t.physicalCoreCount - t.logicalCoreCount) ∧
        c.numCoresWithHyperThreading = t.logicalCoreCount - t.physicalCoreCount ∧
        c.threadsPerCoreArray.length = t.physicalCoreCount.toNat ∧
        (∀ core : Nat, (core : Int) < t.logicalCoreCount - t.physicalCoreCount →
          c.threadsPerCoreArray[core]? = some 2) ∧
        (∀ core : Nat, t.logicalCoreCount - t.physicalCoreCount ≤ (core : Int) →
          (core : Int) < t.physicalCoreCount → c.threadsPerCoreArray[core]? = some 1)) ∧
    (∀ (tpc : Int) (ht : Bool) (junk : Nat → Int) (jwo jw : Int),
      ∃ c, assignThreads ⟨tpc, 24, 32, ht, true⟩ junk jwo jw = some c ∧
        c.numCoresWithoutHyperThreading = 16 ∧ c.numCoresWithHyperThreading = 8 ∧
        c.threadsPerCoreArray = List.replicate 8 2 ++ List.replicate 16 1 ∧
        cpuValue ⟨tpc, 24, 32, ht, true⟩ c 8 = some 16) := by
  constructor
  · intro t junk jwo jw hasym h1 h2
    refine ⟨_, assignThreads_asymmetric t junk jwo jw hasym (by omega) (by omega), ?_, ?_, ?_,
      ?_, ?_, ?_⟩
    · show t.physicalCoreCount * 2 - t.logicalCoreCount = _
      omega
    · show t.physicalCoreCount - (t.physicalCoreCount * 2 - t.logicalCoreCount) = _
      omega
    · show t.physicalCoreCount - (t.physicalCoreCount * 2 - t.logicalCoreCount) = _
      omega
    · simp
    · intro core hc
      show ((List.range t.physicalCoreCount.toNat).map _)[core]? = _
      rw [getElem?_range_map _ _ _ (by omega), if_pos (by omega)]
    · intro core hc hc2
      show ((List.range t.physicalCoreCount.toNat).map _)[core]? = _
      rw [getElem?_range_map _ _ _ hc2, if_neg (by omega)]
  · intro tpc ht junk jwo jw
    refine ⟨_, assignThreads_asymmetric ⟨tpc, 24, 32, ht, true⟩ junk jwo jw rfl
      (show (0 : Int) ≤ 24 by decide) (show (24 : Int) * 2 - 32 > 0 by decide),
      show (24 : Int) * 2 - 32 = 16 by decide, show (24 : Int) - (24 * 2 - 32) = 8 by decide,
      ?_, ?_⟩
    · show (List.range (24 : Int).toNat).map
          (fun (core : Nat) => if (core : Int) < 24 - (24 * 2 - 32) then (2 : Int) else 1)
        = List.replicate 8 2 ++ List.replicate 16 1
      decide
    · show cpuValue ⟨0, 24, 32, true, true⟩
          ⟨(List.range (24 : Int).toNat).map
            (fun (core : Nat) => if (core : Int) < 24 - (24 * 2 - 32) then (2 : Int) else 1),
            24 * 2 - 32, 24 - (24 * 2 - 32)⟩ 8 = some 16
      decide

/-- Witness of the general part of C4 at 24 physical and 32 logical cores. -/
theorem asymmetric_assignment_witness :
    (24 : Int) < 32 ∧ (32 : Int) < 2 * 24 ∧
    ∃ c, assignThreads ⟨1, 24, 32, true, true⟩ (fun _ => 0) 0 0 = some c ∧
      c.numCoresWithoutHyperThreading = 2 * 24 - 32 ∧
      c.numCoresWithHyperThreading = 24 - (2 * 24 - 32) ∧
      c.numCoresWithHyperThreading = 32 - 24 ∧
      c.threadsPerCoreArray.length = (24 : Int).toNat ∧
      (∀ core : Nat, (core : Int) < 32 - 24 → c.threadsPerCoreArray[core]? = some 2) ∧
      (∀ core : Nat, 32 - 24 ≤ (core : Int) → (core : Int) < 24 →
        c.threadsPerCoreArray[core]? = some 1) :=
  ⟨by decide, by decide,
    asymmetric_assignment.1 ⟨1, 24, 32, true, true⟩ (fun _ => 0) 0 0 rfl (by decide)
      (by decide)⟩

/-- C5. In a symmetric layout (asymmetric flag clear, hyperthreading flag set exactly when
`l > p`): if `l = p` every entry of `threadsPerCoreArray` is 1 and the unit selected for
core `c` is `c`; if `l = 2p` every entry is 2 and the unit selected for core `c` is `2c`.
For 8 physical and 16 logical cores the array is eight 2s and core `c` runs on unit `2c`. -/
theorem symmetric_assignment :
    (∀ (t : Topology) (junk : Nat → Int) (jwo jw : Int),
      t.hasAsymmetricalCoreThreads = false →
      (t.isHyperThreadingEnabled = true ↔ t.physicalCoreCount < t.logicalCoreCount) →
      0 ≤ t.physicalCoreCount → t.logicalCoreCount = t.physicalCoreCount →
      ∃ c, assignThreads t junk jwo jw = some c ∧
        c.threadsPerCoreArray.length = t.physicalCoreCount.toNat ∧
        ∀ core : Nat, (core : Int) < t.physicalCoreCount →
          c.threadsPerCoreArray[core]? = some 1 ∧ cpuValue t c core = some (core : Int)) ∧
    (∀ (t : Topology) (junk : Nat → Int) (jwo jw : Int),
      t.hasAsymmetricalCoreThreads = false →
      (t.isHyperThreadingEnabled = true ↔ t.physicalCoreCount < t.logicalCoreCount) →
      0 ≤ t.physicalCoreCount → t.logicalCoreCount = 2 * t.physicalCoreCount →
      ∃ c, assignThreads t junk jwo jw = some c ∧
        c.threadsPerCoreArray.length = t.physicalCoreCount.toNat ∧
        ∀ core : Nat, (core : Int) < t.physicalCoreCount →
          c.threadsPerCoreArray[core]? = some 2 ∧ cpuValue t c core = some (2 * (core : Int))) ∧
    (∀ (tpc : Int) (junk : Nat → Int) (jwo jw : Int),
      ∃ c, assignThreads ⟨tpc, 8, 16, true, false⟩ junk jwo jw = some c ∧
        c.threadsPerCoreArray = List.replicate 8 2 ∧
        ∀ core : Nat, core < 8 →
          cpuValue ⟨tpc, 8, 16, true, false⟩ c core = some (2 * (core : Int))) := by
  refine ⟨?_, ?_, ?_⟩
  · intro t junk jwo jw hsym hht hp hl
    have hf : t.isHyperThreadingEnabled = false := by
      cases h : t.isHyperThreadingEnabled
      · rfl
      · have := hht.mp h; omega
    refine ⟨_, assignThreads_symmetric t junk jwo jw hsym hp, by simp, ?_⟩
    intro core hc
    have h1 : ((List.range t.physicalCoreCount.toNat).map
        fun (_ : Nat) => if t.isHyperThreadingEnabled then (2 : Int) else 1)[core]? = some 1 := by
      rw [getElem?_range_map _ _ _ hc, hf]; rfl
    refine ⟨h1, ?_⟩
    rw [cpuValue_of_some t _ core 1 h1, hsym]
    simp
  · intro t junk jwo jw hsym hht hp hl
    refine ⟨_, assignThreads_symmetric t junk jwo jw hsym hp, by simp, ?_⟩
    intro core hc
    have ht : t.isHyperThreadingEnabled = true := hht.mpr (by omega)
    have h1 : ((List.range t.physicalCoreCount.toNat).map
        fun (_ : Nat) => if t.isHyperThreadingEnabled then (2 : Int) else 1)[core]? = some 2 := by
      rw [getElem?_range_map _ _ _ hc, ht]; rfl
    refine ⟨h1, ?_⟩
    rw [cpuValue_of_some t _ core 2 h1, hsym]
    simp [Int.mul_comm]
  · intro tpc junk jwo jw
    refine ⟨_, assignThreads_symmetric ⟨tpc, 8, 16, true, false⟩ junk jwo jw rfl
      (show (0 : Int) ≤ 8 by decide), ?_, ?_⟩
    · show (List.range (8 : Int).toNat).map (fun (_ : Nat) => if true then (2 : Int) else 1)
        = List.replicate 8 2
      decide
    · intro core hc
      have h1 : ((List.range (8 : Int).toNat).map
          fun (_ : Nat) => if true then (2 : Int) else 1)[core]? = some 2 := by
        rw [getElem?_range_map _ _ _ (by omega)]; rfl
      rw [cpuValue_of_some _ _ core 2 h1]
      simp [Int.mul_comm]

/-- Witness of C5 at 8 physical and 16 logical cores. -/
theorem symmetric_assignment_witness :
    (true = true ↔ (8 : Int) < 16) ∧ (0 : Int) ≤ 8 ∧ (16 : Int) = 2 * 8 ∧
    ∃ c, assignThreads ⟨2, 8, 16, true, false⟩ (fun _ => 0) 0 0 = some c ∧
      c.threadsPerCoreArray.length = (8 : Int).toNat ∧
      ∀ core : Nat, (core : Int) < 8 →
        c.threadsPerCoreArray[core]? = some 2 ∧
        cpuValue ⟨2, 8, 16, true, false⟩ c core = some (2 * (core : Int)) :=
  ⟨by decide, by decide, by decide,
    symmetric_assignment.2.1 ⟨2, 8, 16, true, false⟩ (fun _ => 0) 0 0 rfl (by decide)
      (by decide) (by decide)⟩

/-- C6, counterexample. With 2 physical and 8 logical cores (`l ≥ p > 0`; `l` is neither
`p` nor `2p`, so the asymmetric flag is set, and `l > p`, so the hyperthreading flag is
set) the guard of line 230 is false, no cell of `threadsPerCoreArray` is written, and the
array keeps what the allocation left in it: with cells that held 0, its entries are not
positive and their sum is not 8. -/
theorem unwritten_array_at_four_threads :
    (8 : Int) ≥ 2 ∧ (2 : Int) > 0 ∧
    (true = decide ((8 : Int) ≠ 2 ∧ (8 : Int) ≠ 2 * 2)) ∧ (true = decide ((2 : Int) < 8)) ∧
    assignThreads ⟨4, 2, 8, true, true⟩ (fun _ => 0) 0 0 = some ⟨[0, 0], -4, 6⟩ ∧
    ¬ ∃ c, assignThreads ⟨4, 2, 8, true, true⟩ (fun _ => 0) 0 0 = some c ∧
        c.threadsPerCoreArray.length = (2 : Int).toNat ∧
        (∀ x ∈ c.threadsPerCoreArray, 0 < x) ∧ c.threadsPerCoreArray.sum = 8 := by
  have h : assignThreads ⟨4, 2, 8, true, true⟩ (fun _ => 0) 0 0 = some ⟨[0, 0], -4, 6⟩ := by
    decide
  refine ⟨by decide, by decide, by decide, by decide, h, ?_⟩
  rintro ⟨c, hc, _, _, hsum⟩
  rw [h] at hc
  cases hc
  revert hsum
  decide

/-- C6, amended. For every topology with `p > 0` and `p ≤ l ≤ 2p` (asymmetric flag set
exactly when `l` is neither `p` nor `2p`, hyperthreading flag set exactly when `l > p`)
the thread assignment succeeds and `threadsPerCoreArray` consists of exactly `p` positive
integers whose sum is `l`. -/
theorem assignThreads_sum (t : Topology) (junk : Nat → Int) (jwo jw : Int)
    (hp : 0 < t.physicalCoreCount) (h1 : t.physicalCoreCount ≤ t.logicalCoreCount)
    (h2 : t.logicalCoreCount ≤ 2 * t.physicalCoreCount)
    (hasym : t.hasAsymmetricalCoreThreads
      = decide (t.logicalCoreCount ≠ t.physicalCoreCount
          ∧ t.logicalCoreCount ≠ 2 * t.physicalCoreCount))
    (hht : t.isHyperThreadingEnabled = decide (t.physicalCoreCount < t.logicalCoreCount)) :
    ∃ c, assignThreads t junk jwo jw = some c ∧
      c.threadsPerCoreArray.length = t.physicalCoreCount.toNat ∧
      (∀ x ∈ c.threadsPerCoreArray, 0 < x) ∧
      c.threadsPerCoreArray.sum = t.logicalCoreCount := by
  by_cases hmid : t.logicalCoreCount ≠ t.physicalCoreCount
      ∧ t.logicalCoreCount ≠ 2 * t.physicalCoreCount
  · have ha : t.hasAsymmetricalCoreThreads = true := by rw [hasym]; exact decide_eq_true hmid
    refine ⟨_, assignThreads_asymmetric t junk jwo jw ha (by omega) (by omega), by simp, ?_, ?_⟩
    · intro x hx
      obtain ⟨core, _, rfl⟩ := List.mem_map.mp hx
      split <;> decide
    · show ((List.range t.physicalCoreCount.toNat).map fun (core : Nat) =>
          if (core : Int) < t.physicalCoreCount
            - (t.physicalCoreCount * 2 - t.logicalCoreCount) then (2 : Int) else 1).sum = _
      rw [sum_two_tier]
      omega
  · have ha : t.hasAsymmetricalCoreThreads = false := by
      rw [hasym]; exact decide_eq_false hmid
    refine ⟨_, assignThreads_symmetric t junk jwo jw ha (by omega), by simp, ?_, ?_⟩
    · intro x hx
      obtain ⟨core, _, rfl⟩ := List.mem_map.mp hx
      split <;> decide
    · by_cases hl : t.physicalCoreCount < t.logicalCoreCount
      · have hb : t.isHyperThreadingEnabled = true := by rw [hht]; exact decide_eq_true hl
        show ((List.range t.physicalCoreCount.toNat).map fun (_ : Nat) =>
          if t.isHyperThreadingEnabled then (2 : Int) else 1).sum = _
        rw [hb]
        have := sum_two_tier t.physicalCoreCount t.physicalCoreCount.toNat
        have hfun : ((List.range t.physicalCoreCount.toNat).map fun (_ : Nat) =>
            if true = true then (2 : Int) else 1)
            = (List.range t.physicalCoreCount.toNat).map fun (core : Nat) =>
              if (core : Int) < t.physicalCoreCount then (2 : Int) else 1 := by
          apply List.map_congr_left
          intro a ha2
          have : a < t.physicalCoreCount.toNat := List.mem_range.mp ha2
          rw [if_pos rfl, if_pos (by omega)]
        rw [hfun, this]
        omega
      · have hb : t.isHyperThreadingEnabled = false := by rw [hht]; exact decide_eq_false hl
        show ((List.range t.physicalCoreCount.toNat).map fun (_ : Nat) =>
          if t.isHyperThreadingEnabled then (2 : Int) else 1).sum = _
        rw [hb]
        have := sum_two_tier 0 t.physicalCoreCount.toNat
        have hfun : ((List.range t.physicalCoreCount.toNat).map fun (_ : Nat) =>
            if false = true then (2 : Int) else 1)
            = (List.range t.physicalCoreCount.toNat).map fun (core : Nat) =>
              if (core : Int) < 0 then (2 : Int) else 1 := by
          apply List.map_congr_left
          intro a _
          rw [if_neg (by decide), if_neg (by omega)]
        rw [hfun, this]
        omega

/-- Witness of the amended C6 at 24 physical and 32 logical cores. -/
theorem assignThreads_sum_witness :
    (0 : Int) < 24 ∧ (24 : Int) ≤ 32 ∧ (32 : Int) ≤ 2 * 24 ∧
    ∃ c, assignThreads ⟨1, 24, 32, true, true⟩ (fun _ => 0) 0 0 = some c ∧
      c.threadsPerCoreArray.length = (24 : Int).toNat ∧
      (∀ x ∈ c.threadsPerCoreArray, 0 < x) ∧ c.threadsPerCoreArray.sum = 32 :=
  ⟨by decide, by decide, by decide,
    assignThreads_sum ⟨1, 24, 32, true, true⟩ (fun _ => 0) 0 0 (by decide) (by decide)
      (by decide) (by decide) (by decide)⟩

/-- C7. In an asymmetric layout (`p < l < 2p`, asymmetric flag set) with
`W = numCoresWithHyperThreading` two-thread cores, the unit selected for a core `c < W` is
`2c`, and the unit selected for a core `c` with `W ≤ c < p` is
`(W * 2) - 1 + (c - (W - 1))`, which equals `2W + (c - W)`. -/
theorem asymmetric_unit_selection (t : Topology) (junk : Nat → Int) (jwo jw : Int)
    (hasym : t.hasAsymmetricalCoreThreads = true)
    (h1 : t.physicalCoreCount < t.logicalCoreCount)
    (h2 : t.logicalCoreCount < 2 * t.physicalCoreCount) :
    ∃ c, assignThreads t junk jwo jw = some c ∧
      c.numCoresWithHyperThreading = t.logicalCoreCount - t.physicalCoreCount ∧
      (∀ core : Nat, (core : Int) < c.numCoresWithHyperThreading →
        cpuValue t c core = some (2 * (core : Int))) ∧
      (∀ core : Nat, c.numCoresWithHyperThreading ≤ (core : Int) →
        (core : Int) < t.physicalCoreCount →
        cpuValue t c core = some (c.numCoresWithHyperThreading * 2 - 1
            + ((core : Int) - (c.numCoresWithHyperThreading - 1))) ∧
        c.numCoresWithHyperThreading * 2 - 1 + ((core : Int) - (c.numCoresWithHyperThreading - 1))
          = 2 * c.numCoresWithHyperThreading + ((core : Int) - c.numCoresWithHyperThreading)) := by
  refine ⟨_, assignThreads_asymmetric t junk jwo jw hasym (by omega) (by omega), ?_, ?_, ?_⟩
  · show t.physicalCoreCount - (t.physicalCoreCount * 2 - t.logicalCoreCount) = _
    omega
  · intro core hc
    have hc : (core : Int) < t.physicalCoreCount
        - (t.physicalCoreCount * 2 - t.logicalCoreCount) := hc
    have h3 := getElem?_range_map (fun (core : Nat) =>
      if (core : Int) < t.physicalCoreCount - (t.physicalCoreCount * 2 - t.logicalCoreCount)
      then (2 : Int) else 1) t.physicalCoreCount core (by omega)
    rw [cpuValue_of_some t _ core _ h3, hasym]
    have hnot : ¬ ((core : Int) > t.physicalCoreCount
        - (t.physicalCoreCount * 2 - t.logicalCoreCount) - 1) := by omega
    simp only [Bool.true_and, decide_eq_true_eq, hnot, if_false, hc, if_true]
    rw [Int.mul_comm]
  · intro core hc hc2
    have hc : t.physicalCoreCount - (t.physicalCoreCount * 2 - t.logicalCoreCount)
        ≤ (core : Int) := hc
    have h3 := getElem?_range_map (fun (core : Nat) =>
      if (core : Int) < t.physicalCoreCount - (t.physicalCoreCount * 2 - t.logicalCoreCount)
      then (2 : Int) else 1) t.physicalCoreCount core hc2
    refine ⟨?_, by omega⟩
    rw [cpuValue_of_some t _ core _ h3, hasym]
    have hgt : (core : Int) > t.physicalCoreCount
        - (t.physicalCoreCount * 2 - t.logicalCoreCount) - 1 := by omega
    simp only [Bool.true_and, decide_eq_true_eq, hgt, if_true]

/-- Witness of C7 at 24 physical and 32 logical cores (`W = 8`). -/
theorem asymmetric_unit_selection_witness :
    (24 : Int) < 32 ∧ (32 : Int) < 2 * 24 ∧
    ∃ c, assignThreads ⟨1, 24, 32, true, true⟩ (fun _ => 0) 0 0 = some c ∧
      c.numCoresWithHyperThreading = 32 - 24 ∧
      (∀ core : Nat, (core : Int) < c.numCoresWithHyperThreading →
        cpuValue ⟨1, 24, 32, true, true⟩ c core = some (2 * (core : Int))) ∧
      (∀ core : Nat, c.numCoresWithHyperThreading ≤ (core : Int) → (core : Int) < 24 →
        cpuValue ⟨1, 24, 32, true, true⟩ c core
          = some (c.numCoresWithHyperThreading * 2 - 1
            + ((core : Int) - (c.numCoresWithHyperThreading - 1))) ∧
        c.numCoresWithHyperThreading * 2 - 1 + ((core : Int) - (c.numCoresWithHyperThreading - 1))
          = 2 * c.numCoresWithHyperThreading + ((core : Int) - c.numCoresWithHyperThreading)) :=
  ⟨by decide, by decide,
    asymmetric_unit_selection ⟨1, 24, 32, true, true⟩ (fun _ => 0) 0 0 rfl (by decide)
      (by decide)⟩

/-- C8. With `physicalCoreCount = 0` and `logicalCoreCount = 0`, whatever the flags: the
allocation `new int[0]` succeeds with no cell, the thread assignment succeeds and leaves
the array empty, each of the two assignment loops runs zero times, and one round of the
per-core loop succeeds without calling `runTest`, leaving `counter` and the list of runs as
they were. -/
theorem degenerate_topology (tpc : Int) (ht asym : Bool) (junk : Nat → Int) (jwo jw w : Int)
    (N : Nat) (mem : List Nat) (s : MainState) :
    allocInts 0 junk = some [] ∧
    forLoop (asymmetricBody w) (0 : Int).toNat 0 [] = some [] ∧
    forLoop (symmetricBody ht) (0 : Int).toNat 0 [] = some [] ∧
    ∃ c, assignThreads ⟨tpc, 0, 0, ht, asym⟩ junk jwo jw = some c ∧
      c.threadsPerCoreArray = [] ∧
      coreRound N mem ⟨tpc, 0, 0, ht, asym⟩ c s = some s := by
  refine ⟨rfl, rfl, rfl, ?_⟩
  cases asym
  · exact ⟨_, rfl, rfl, rfl⟩
  · exact ⟨_, rfl, rfl, rfl⟩

/-! ## The outer loop -/

theorem toULong_lt (x : Int) : toULong x < 2 ^ 32 := by
  unfold toULong
  have h := Int.emod_lt_of_pos x (show (0 : Int) < 2 ^ 32 by decide)
  have h0 := Int.emod_nonneg x (show (2 : Int) ^ 32 ≠ 0 by decide)
  omega

/-- Whatever `runTest` returns, the value stored in `counter` is below the bound. -/
theorem roundBody_counter (N : Nat) (mem : List Nat) (t : Topology) (c : CoreLayout)
    (core : Nat) (s u : MainState) (h : roundBody N mem t c core s = some u) :
    u.counter < 2 ^ 32 := by
  simp only [roundBody] at h
  cases hc : cpuValue t c core with
  | none => simp [hc] at h
  | some cpu =>
    cases hr : runTest N mem cpu with
    | none => simp [hc, hr] at h
    | some r =>
      simp only [hc, hr, Option.some_bind, Option.map_some', Option.some.injEq] at h
      rw [← h]
      exact toULong_lt _

/-- The function `runTest` succeeds on an array of `N > 0` cells that all hold indices of
the array, and its value is an index of the array. -/
theorem runTest_of_closed (N : Nat) (mem : List Nat) (core : Int) (hlen : mem.length = N)
    (hpos : 0 < N) (hclosed : ∀ v, v < N → ∃ u, mem[v]? = some u ∧ u < N) :
    runTest N mem core
      = some (mem, ⟨(next mem)^[100 * (N / 8192) + N] (next mem 0), 100 * (N / 8192) + N⟩) ∧
    (next mem)^[100 * (N / 8192) + N] (next mem 0) < N := by
  subst hlen
  obtain ⟨u, hu, hu2⟩ := hclosed 0 hpos
  have hn : next mem 0 = u := next_of_some mem 0 u hu
  obtain ⟨h1, h2⟩ := forLoop_warmUpBody mem.length mem hclosed 100 0 ⟨u, 0⟩ hu2
  obtain ⟨h3, h4⟩ := forLoop_walkStep mem hclosed mem.length 0
    ⟨(next mem)^[100 * (mem.length / 8192)] u, 100 * (mem.length / 8192)⟩ h2
  simp only [Nat.zero_add] at h1
  have hit : (next mem)^[mem.length] ((next mem)^[100 * (mem.length / 8192)] u)
      = (next mem)^[100 * (mem.length / 8192) + mem.length] u := by
    rw [Nat.add_comm, Function.iterate_add_apply]
  rw [hit] at h3 h4
  rw [hn]
  refine ⟨?_, h4⟩
  simp only [runTest, hu, Option.some_bind, h1, h3, Option.map_some']

/-- The thread assignment, when it succeeds, leaves an array of `physicalCoreCount` cells. -/
theorem assignThreads_length (t : Topology) (junk : Nat → Int) (jwo jw : Int) (c : CoreLayout)
    (h : assignThreads t junk jwo jw = some c) :
    c.threadsPerCoreArray.length = t.physicalCoreCount.toNat := by
  by_cases hp : 0 ≤ t.physicalCoreCount
  · cases hasym : t.hasAsymmetricalCoreThreads with
    | true =>
      by_cases hg : t.physicalCoreCount * 2 - t.logicalCoreCount > 0
      · rw [assignThreads_asymmetric t junk jwo jw hasym hp hg] at h
        cases h; simp
      · rw [assignThreads_asymmetric_skip t junk jwo jw hasym hp hg] at h
        cases h; simp [length_allocCells]
    | false =>
      rw [assignThreads_symmetric t junk jwo jw hasym hp] at h
      cases h; simp
  · simp [assignThreads, allocInts, hp] at h

/-- One round of the per-core loop on an array whose cells all hold indices of the array:
it succeeds, calls `runTest` once per physical core, and leaves `counter` below `2 ^ 32`. -/
theorem coreRound_ok (N : Nat) (mem : List Nat) (t : Topology) (c : CoreLayout)
    (hlen : mem.length = N) (hpos : 0 < N)
    (hclosed : ∀ v, v < N → ∃ u, mem[v]? = some u ∧ u < N)
    (hc : c.threadsPerCoreArray.length = t.physicalCoreCount.toNat)
    (s : MainState) (hs : s.counter < 2 ^ 32) :
    ∃ u, coreRound N mem t c s = some u ∧ u.counter < 2 ^ 32 ∧
      u.runs.length = s.runs.length + t.physicalCoreCount.toNat := by
  obtain ⟨u, hu, h1, h2⟩ := forLoop_inv (roundBody N mem t c)
    (fun i v => v.counter < 2 ^ 32 ∧ v.runs.length = s.runs.length + i)
    t.physicalCoreCount.toNat 0 s ⟨hs, rfl⟩
    (by
      intro i v _ hi ⟨_, hv2⟩
      have hi2 : i < c.threadsPerCoreArray.length := by omega
      obtain ⟨cpu, hcpu⟩ : ∃ cpu, cpuValue t c i = some cpu :=
        ⟨_, cpuValue_of_some t c i _ (List.getElem?_eq_getElem hi2)⟩
      obtain ⟨hrun, _⟩ := runTest_of_closed N mem cpu hlen hpos hclosed
      refine ⟨⟨toULong (toInt32 ((next mem)^[100 * (N / 8192) + N] (next mem 0))),
          v.runs ++ [cpu]⟩,
        by simp only [roundBody, hcpu, Option.some_bind, hrun, Option.map_some'],
        toULong_lt _, ?_⟩
      simp [hv2]; omega)
  exact ⟨u, hu, h1, by simpa using h2⟩

/-- The outer loop on such an array: after any number of rounds it is still running. -/
theorem mainLoop_running (N : Nat) (mem : List Nat) (t : Topology) (c : CoreLayout)
    (hlen : mem.length = N) (hpos : 0 < N)
    (hclosed : ∀ v, v < N → ∃ u, mem[v]? = some u ∧ u < N)
    (hc : c.threadsPerCoreArray.length = t.physicalCoreCount.toNat) :
    ∀ (rounds : Nat) (s : MainState), s.counter < 2 ^ 32 →
      ∃ u, mainLoop N mem t c rounds s = some (.running u) ∧ u.counter < 2 ^ 32 ∧
        u.runs.length = s.runs.length + rounds * t.physicalCoreCount.toNat := by
  intro rounds
  induction rounds with
  | zero => intro s hs; exact ⟨s, rfl, hs, by simp⟩
  | succ n ih =>
    intro s hs
    obtain ⟨v, hv, hv1, hv2⟩ := coreRound_ok N mem t c hlen hpos hclosed hc s hs
    obtain ⟨u, hu, hu1, hu2⟩ := ih v hv1
    have hb : s.counter < OUTER_BOUND := by
      have : (2 : Nat) ^ 32 < OUTER_BOUND := by decide
      omega
    refine ⟨u, ?_, hu1, ?_⟩
    · simp only [mainLoop, hb, if_true, hv, Option.some_bind, hu]
    · rw [hu2, hv2, Nat.add_mul]; omega

/-- C11. The value a call of `runTest` leaves in `counter` is below `0xFFFFFFFFF` whatever
the array and the topology; and for every built array (`H ≥ 1`) and every topology for
which the thread assignment succeeds, the loop `while (counter < 0xFFFFFFFFF)` started
with `counter = 0` is still running after any number of rounds, with its condition true
and `runTest` called once per physical core and round.  The assignment succeeds whenever
`physicalCoreCount ≥ 0`. -/
theorem outer_loop_never_exits (H : Nat) (rand junk : Nat → Nat) (t : Topology)
    (junkI : Nat → Int) (jwo jw : Int) (hH : 1 ≤ H) :
    (∀ N mem c core s u, roundBody N mem t c core s = some u → u.counter < OUTER_BOUND) ∧
    (0 ≤ t.physicalCoreCount → ∃ c, assignThreads t junkI jwo jw = some c) ∧
    ∃ b, buildArray H rand junk = some b ∧
      ∀ c, assignThreads t junkI jwo jw = some c →
        ∀ rounds, ∃ s, mainLoop (arraySize H) b.mem t c rounds ⟨0, []⟩ = some (.running s) ∧
          s.counter < OUTER_BOUND ∧ s.runs.length = rounds * t.physicalCoreCount.toNat := by
  have hbound : (2 : Nat) ^ 32 < OUTER_BOUND := by decide
  refine ⟨?_, ?_, ?_⟩
  · intro N mem c core s u h
    have := roundBody_counter N mem t c core s u h
    omega
  · intro hp
    cases hasym : t.hasAsymmetricalCoreThreads with
    | true =>
      by_cases hg : t.physicalCoreCount * 2 - t.logicalCoreCount > 0
      · exact ⟨_, assignThreads_asymmetric t junkI jwo jw hasym hp hg⟩
      · exact ⟨_, assignThreads_asymmetric_skip t junkI jwo jw hasym hp hg⟩
    | false => exact ⟨_, assignThreads_symmetric t junkI jwo jw hasym hp⟩
  · obtain ⟨b, hb, hP⟩ := buildArray_halvesPerm H rand junk
    have hlen : b.mem.length = arraySize H := by have := hP.1; simp [arraySize]; omega
    refine ⟨b, hb, ?_⟩
    intro c hc rounds
    obtain ⟨u, hu, hu1, hu2⟩ := mainLoop_running (arraySize H) b.mem t c hlen
      (by simp [arraySize]; omega)
      (fun v hv => by
        have := halvesPerm_closed H b.mem hP v (by rw [hlen]; exact hv)
        rwa [hlen] at this)
      (assignThreads_length t junkI jwo jw c hc) rounds ⟨0, []⟩ (by decide)
    exact ⟨u, hu, by omega, by simpa using hu2⟩

/-- Witness of C11 at `H = 8` with two physical and four logical cores. -/
theorem outer_loop_never_exits_witness :
    1 ≤ 8 ∧ ∃ b, buildArray 8 (fun k => k * k + 5) (fun _ => 0) = some b ∧
      ∀ rounds, ∃ s,
        mainLoop (arraySize 8) b.mem ⟨2, 2, 4, true, false⟩ ⟨[2, 2], 0, 0⟩ rounds ⟨0, []⟩
          = some (.running s) ∧
        s.counter < OUTER_BOUND ∧ s.runs.length = rounds * (2 : Int).toNat :=
  ⟨by decide,
    (outer_loop_never_exits 8 (fun k => k * k + 5) (fun _ => 0) ⟨2, 2, 4, true, false⟩
      (fun _ => 0) 0 0 (by decide)).2.2.imp fun _ h => ⟨h.1, h.2 ⟨[2, 2], 0, 0⟩ (by decide)⟩⟩

/-! ## Frame of the shuffles -/

/-- A swap of two low positions rearranges the low half and leaves the high half alone. -/
theorem swapCells_low_frame (H : Nat) (m : List Nat) (i r : Nat) (hlen : m.length = 2 * H)
    (hi : i < H) (hr : r < H) :
    ∃ m2, swapCells m i r = some m2 ∧ m2.length = 2 * H ∧
      (m2.take H).Perm (m.take H) ∧ m2.drop H = m.drop H := by
  have h1 : i < m.length := by omega
  have h2 : r < m.length := by omega
  have e1 : m[i]? = some m[i] := List.getElem?_eq_getElem h1
  have e2 : m[r]? = some m[r] := List.getElem?_eq_getElem h2
  refine ⟨_, swapCells_of_some m i r _ _ e1 e2, by simp [hlen], ?_, ?_⟩
  · rw [List.set_take, List.set_take]
    refine swap_perm (m.take H) i r _ _ ?_ ?_
    · rw [List.getElem?_take_of_lt hi]; exact e1
    · rw [List.getElem?_take_of_lt hr]; exact e2
  · rw [List.drop_set_of_lt _ _ hr, List.drop_set_of_lt _ _ hi]

/-- A swap of two high positions rearranges the high half and leaves the low half alone. -/
theorem swapCells_high_frame (H : Nat) (m : List Nat) (i r : Nat) (hlen : m.length = 2 * H)
    (hi : H ≤ i) (hi2 : i < 2 * H) (hr : H ≤ r) (hr2 : r < 2 * H) :
    ∃ m2, swapCells m i r = some m2 ∧ m2.length = 2 * H ∧
      m2.take H = m.take H ∧ (m2.drop H).Perm (m.drop H) := by
  have h1 : i < m.length := by omega
  have h2 : r < m.length := by omega
  have e1 : m[i]? = some m[i] := List.getElem?_eq_getElem h1
  have e2 : m[r]? = some m[r] := List.getElem?_eq_getElem h2
  refine ⟨_, swapCells_of_some m i r _ _ e1 e2, by simp [hlen], ?_, ?_⟩
  · rw [List.set_take, List.set_take,
      List.set_eq_of_length_le (l := m.take H) (by simp; omega),
      List.set_eq_of_length_le (by simp; omega)]
  · rw [List.drop_set, if_neg (by omega), List.drop_set, if_neg (by omega)]
    refine swap_perm (m.drop H) (i - H) (r - H) _ _ ?_ ?_
    · rw [List.getElem?_drop, show H + (i - H) = i by omega]; exact e1
    · rw [List.getElem?_drop, show H + (r - H) = r by omega]; exact e2

theorem shuffleLow_frame (rand : Nat → Nat) (H : Nat) (s : BuildState)
    (hlen : s.mem.length = 2 * H) :
    ∃ u, shuffleLow rand H s = some u ∧ u.mem.length = 2 * H ∧
      (u.mem.take H).Perm (s.mem.take H) ∧ u.mem.drop H = s.mem.drop H ∧
      u.randCalls = s.randCalls + H := by
  obtain ⟨u, hu, h1, h2, h3, h4⟩ := forLoop_inv (shuffleLowBody rand H)
    (fun i t => t.mem.length = 2 * H ∧ (t.mem.take H).Perm (s.mem.take H)
      ∧ t.mem.drop H = s.mem.drop H ∧ t.randCalls = s.randCalls + i)
    H 0 s ⟨hlen, List.Perm.refl _, rfl, rfl⟩ (by
      intro i t _ hi ⟨hl, hp, hd, hc⟩
      have hH : 0 < H := by omega
      obtain ⟨m2, hm2, hl2, hp2, hd2⟩ := swapCells_low_frame H t.mem i (rand t.randCalls % H) hl
        (by omega) (Nat.mod_lt _ hH)
      exact ⟨⟨m2, t.randCalls + 1⟩, by simp [shuffleLowBody, hm2], hl2, hp2.trans hp,
        hd2.trans hd, by simp [hc]; omega⟩)
  exact ⟨u, hu, h1, h2, h3, by simpa using h4⟩

theorem shuffleHigh_frame (rand : Nat → Nat) (H : Nat) (s : BuildState)
    (hlen : s.mem.length = 2 * H) :
    ∃ u, shuffleHigh rand H s = some u ∧ u.mem.length = 2 * H ∧
      u.mem.take H = s.mem.take H ∧ (u.mem.drop H).Perm (s.mem.drop H) ∧
      u.randCalls = s.randCalls + H := by
  obtain ⟨u, hu, h1, h2, h3, h4⟩ := forLoop_inv (shuffleHighBody rand H)
    (fun i t => t.mem.length = 2 * H ∧ t.mem.take H = s.mem.take H
      ∧ (t.mem.drop H).Perm (s.mem.drop H) ∧ t.randCalls + H = s.randCalls + i)
    (arraySize H - H) H s ⟨hlen, rfl, List.Perm.refl _, by omega⟩ (by
      intro i t h1 hi ⟨hl, ht, hp, hc⟩
      have hH : 0 < H := by simp [arraySize] at hi; omega
      have hi2 : i < 2 * H := by simp [arraySize] at hi; omega
      have hr := Nat.mod_lt (rand t.randCalls) hH
      obtain ⟨m2, hm2, hl2, ht2, hp2⟩ := swapCells_high_frame H t.mem i
        (rand t.randCalls % H + H) hl h1 hi2 (by omega) (by omega)
      exact ⟨⟨m2, t.randCalls + 1⟩, by simp [shuffleHighBody, hm2], hl2, ht2.trans ht,
        hp2.trans hp, by simp; omega⟩)
  refine ⟨u, hu, h1, h2, h3, ?_⟩
  simp only [arraySize] at h4
  omega

/-- C13. On an array of `2H` cells, for every stream of draws: the partner index of the low
shuffle is below `H` and that of the high shuffle is in `[H, 2H)`; the low shuffle loop
succeeds, rearranges the low half among its own positions and leaves every cell `j ≥ H`
as it was; the high shuffle loop succeeds, rearranges the high half among its own
positions and leaves every cell `j < H` as it was. -/
theorem shuffles_stay_in_their_half (rand : Nat → Nat) (H : Nat) (s : BuildState)
    (hlen : s.mem.length = arraySize H) :
    (0 < H → ∀ k, rand k % H < H ∧ H ≤ rand k % H + H ∧ rand k % H + H < arraySize H) ∧
    (∃ u, shuffleLow rand H s = some u ∧ u.mem.length = arraySize H ∧
      (u.mem.take H).Perm (s.mem.take H) ∧ ∀ j, H ≤ j → u.mem[j]? = s.mem[j]?) ∧
    (∃ u, shuffleHigh rand H s = some u ∧ u.mem.length = arraySize H ∧
      (u.mem.drop H).Perm (s.mem.drop H) ∧ ∀ j, j < H → u.mem[j]? = s.mem[j]?) := by
  have hl : s.mem.length = 2 * H := by simp [arraySize] at hlen; omega
  refine ⟨?_, ?_, ?_⟩
  · intro hH k
    have := Nat.mod_lt (rand k) hH
    simp only [arraySize]
    omega
  · obtain ⟨u, hu, h1, h2, h3, _⟩ := shuffleLow_frame rand H s hl
    refine ⟨u, hu, by simp [arraySize]; omega, h2, ?_⟩
    intro j hj
    have := congrArg (fun l => l[j - H]?) h3
    simp only [List.getElem?_drop] at this
    rwa [show H + (j - H) = j by omega] at this
  · obtain ⟨u, hu, h1, h2, h3, _⟩ := shuffleHigh_frame rand H s hl
    refine ⟨u, hu, by simp [arraySize]; omega, h3, ?_⟩
    intro j hj
    have := congrArg (fun l => l[j]?) h2
    simp only [List.getElem?_take_of_lt hj] at this
    exact this

/-- Witness of C13 on the array `2, 3, 0, 1` (`H = 2`). -/
theorem shuffles_stay_in_their_half_witness :
    (BuildState.mk [2, 3, 0, 1] 0).mem.length = arraySize 2 ∧
    (∃ u, shuffleLow (fun k => k * k + 5) 2 ⟨[2, 3, 0, 1], 0⟩ = some u ∧
      u.mem.length = arraySize 2 ∧
      (u.mem.take 2).Perm ((BuildState.mk [2, 3, 0, 1] 0).mem.take 2) ∧
      ∀ j, 2 ≤ j → u.mem[j]? = (BuildState.mk [2, 3, 0, 1] 0).mem[j]?) ∧
    (∃ u, shuffleHigh (fun k => k * k + 5) 2 ⟨[2, 3, 0, 1], 0⟩ = some u ∧
      u.mem.length = arraySize 2 ∧
      (u.mem.drop 2).Perm ((BuildState.mk [2, 3, 0, 1] 0).mem.drop 2) ∧
      ∀ j, j < 2 → u.mem[j]? = (BuildState.mk [2, 3, 0, 1] 0).mem[j]?) :=
  ⟨by decide,
    (shuffles_stay_in_their_half (fun k => k * k + 5) 2 ⟨[2, 3, 0, 1], 0⟩ (by decide)).2⟩

/-! ## The configured size in 32-bit arithmetic -/

theorem half_array_value : HALF_ARRAY = 33554432 := by decide

theorem half_array_u32_value : HALF_ARRAY_u32 = 33554432 := by decide

theorem array_size_value : ARRAY_SIZE = 67108864 := by decide

theorem u32_of_lt (n : Nat) (h : n < 2 ^ 32) : u32 n = n := Nat.mod_eq_of_lt h

theorem toInt32_of_lt (u : Nat) (h : u < 2 ^ 31) : toInt32 u = (u : Int) := by
  have h2 : u % 2 ^ 32 = u := Nat.mod_eq_of_lt (by omega)
  simp only [toInt32, h2, h, if_true]

theorem swapCellsInt_natCast (mem : List Nat) (i r : Nat) :
    swapCellsInt mem i (r : Int) = swapCells mem i r := by
  simp [swapCellsInt]

/-- C14. In `unsigned int` arithmetic `HALF_ARRAY` is `0x1FFFFFF + 1 = 33554432` and
`ARRAY_SIZE = HALF_ARRAY * 2` is exactly `67108864 = 2 ^ 26`, the product staying below
`2 ^ 32`.  For every `i < HALF_ARRAY` the index `i + HALF_ARRAY`, and for every non-negative
`int` draw `r` the partners `r % HALF_ARRAY` and `(r % HALF_ARRAY) + HALF_ARRAY`, stay
below `2 ^ 32` before reduction, are below `ARRAY_SIZE`, equal their mathematical values
and survive the storage in an `int`; so the loop bodies computed in 32-bit arithmetic are
the bodies of the builder at `H = HALF_ARRAY`. -/
theorem configured_size_no_wraparound :
    (HALF_ARRAY_u32 = HALF_ARRAY ∧ HALF_ARRAY_u32 * 2 < 2 ^ 32 ∧
      ARRAY_SIZE_u32 = 67108864 ∧ (67108864 : Nat) = 2 ^ 26 ∧ ARRAY_SIZE_u32 = ARRAY_SIZE) ∧
    (∀ i, i < HALF_ARRAY →
      i + HALF_ARRAY_u32 < 2 ^ 32 ∧ fillIndex_u32 i = i + HALF_ARRAY ∧
      fillIndex_u32 i < ARRAY_SIZE ∧
      ∀ mem, fillBody_u32 i mem = fillBody HALF_ARRAY i mem) ∧
    (∀ r, r < 2 ^ 31 →
      lowPartner_u32 r = r % HALF_ARRAY ∧ lowPartner_u32 r < HALF_ARRAY ∧
      toInt32 (lowPartner_u32 r) = ((r % HALF_ARRAY : Nat) : Int) ∧
      u32 r % HALF_ARRAY_u32 + HALF_ARRAY_u32 < 2 ^ 32 ∧
      highPartner_u32 r = r % HALF_ARRAY + HALF_ARRAY ∧ highPartner_u32 r < ARRAY_SIZE ∧
      toInt32 (highPartner_u32 r) = ((r % HALF_ARRAY + HALF_ARRAY : Nat) : Int)) ∧
    (∀ (rand : Nat → Nat) (i : Nat) (s : BuildState), rand s.randCalls < 2 ^ 31 →
      shuffleLowBody_u32 rand i s = shuffleLowBody rand HALF_ARRAY i s ∧
      shuffleHighBody_u32 rand i s = shuffleHighBody rand HALF_ARRAY i s) := by
  have hH := half_array_value
  have hU := half_array_u32_value
  have hA := array_size_value
  have hlow : ∀ r, r < 2 ^ 31 → lowPartner_u32 r = r % HALF_ARRAY ∧
      lowPartner_u32 r < HALF_ARRAY := by
    intro r hr
    have h1 : u32 r = r := u32_of_lt r (by omega)
    have h2 := Nat.mod_lt r (show 0 < 33554432 by decide)
    have e : lowPartner_u32 r = r % 33554432 := by
      unfold lowPartner_u32; rw [h1, hU]
    rw [e, hH]
    exact ⟨rfl, h2⟩
  have hhigh : ∀ r, r < 2 ^ 31 → highPartner_u32 r = r % HALF_ARRAY + HALF_ARRAY ∧
      highPartner_u32 r < ARRAY_SIZE ∧ u32 r % HALF_ARRAY_u32 + HALF_ARRAY_u32 < 2 ^ 32 := by
    intro r hr
    have h1 : u32 r = r := u32_of_lt r (by omega)
    have h2 := Nat.mod_lt r (show 0 < 33554432 by decide)
    have h3 : u32 (r % 33554432 + 33554432) = r % 33554432 + 33554432 :=
      u32_of_lt _ (by omega)
    have e : highPartner_u32 r = r % 33554432 + 33554432 := by
      unfold highPartner_u32; rw [h1, hU]; exact h3
    rw [e, h1, hU, hH, hA]
    omega
  refine ⟨⟨by decide, by decide, by decide, by decide, by decide⟩, ?_, ?_, ?_⟩
  · intro i hi
    rw [hH] at hi
    have h3 : fillIndex_u32 i = i + HALF_ARRAY := by
      simp only [fillIndex_u32, hU, hH]
      exact u32_of_lt _ (by omega)
    refine ⟨by rw [hU]; omega, h3, by rw [h3, hH, hA]; omega, ?_⟩
    intro mem
    simp only [fillBody_u32, fillBody, h3]
  · intro r hr
    obtain ⟨l1, l2⟩ := hlow r hr
    obtain ⟨g1, g2, g3⟩ := hhigh r hr
    refine ⟨l1, l2, ?_, g3, g1, g2, ?_⟩
    · rw [toInt32_of_lt _ (by rw [hH] at l2; omega), l1]
    · rw [toInt32_of_lt _ (by rw [hA] at g2; omega), g1]
  · intro rand i s hr
    obtain ⟨l1, l2⟩ := hlow _ hr
    obtain ⟨g1, g2, _⟩ := hhigh _ hr
    constructor
    · simp only [shuffleLowBody_u32, shuffleLowBody]
      rw [toInt32_of_lt _ (by rw [hH] at l2; omega), swapCellsInt_natCast, l1]
    · simp only [shuffleHighBody_u32, shuffleHighBody]
      rw [toInt32_of_lt _ (by rw [hA] at g2; omega), swapCellsInt_natCast, g1]

/-- Witness of C14 at the last index `HALF_ARRAY - 1` of the fill loop and at the draw
`32767`. -/
theorem configured_size_no_wraparound_witness :
    (33554431 < HALF_ARRAY ∧
      33554431 + HALF_ARRAY_u32 < 2 ^ 32 ∧ fillIndex_u32 33554431 = 33554431 + HALF_ARRAY ∧
      fillIndex_u32 33554431 < ARRAY_SIZE ∧
      ∀ mem, fillBody_u32 33554431 mem = fillBody HALF_ARRAY 33554431 mem) ∧
    (32767 < 2 ^ 31 ∧
      lowPartner_u32 32767 = 32767 % HALF_ARRAY ∧ lowPartner_u32 32767 < HALF_ARRAY ∧
      toInt32 (lowPartner_u32 32767) = ((32767 % HALF_ARRAY : Nat) : Int) ∧
      u32 32767 % HALF_ARRAY_u32 + HALF_ARRAY_u32 < 2 ^ 32 ∧
      highPartner_u32 32767 = 32767 % HALF_ARRAY + HALF_ARRAY ∧
      highPartner_u32 32767 < ARRAY_SIZE ∧
      toInt32 (highPartner_u32 32767) = ((32767 % HALF_ARRAY + HALF_ARRAY : Nat) : Int)) :=
  ⟨⟨by decide, configured_size_no_wraparound.2.1 33554431 (by decide)⟩,
    ⟨by decide, configured_size_no_wraparound.2.2.1 32767 (by decide)⟩⟩

/-! ## Selected units as prefix sums -/

/-- For `p ≤ l ≤ 2p` the assignment writes 2 into the cells below `l - p` and 1 into the
others, in the symmetric branch as well as in the asymmetric one. -/
theorem assignThreads_two_tier (t : Topology) (junk : Nat → Int) (jwo jw : Int)
    (hp : 0 < t.physicalCoreCount) (h1 : t.physicalCoreCount ≤ t.logicalCoreCount)
    (h2 : t.logicalCoreCount ≤ 2 * t.physicalCoreCount)
    (hasym : t.hasAsymmetricalCoreThreads
      = decide (t.logicalCoreCount ≠ t.physicalCoreCount
          ∧ t.logicalCoreCount ≠ 2 * t.physicalCoreCount))
    (hht : t.isHyperThreadingEnabled = decide (t.physicalCoreCount < t.logicalCoreCount)) :
    ∃ c, assignThreads t junk jwo jw = some c ∧
      c.threadsPerCoreArray = ((List.range t.physicalCoreCount.toNat).map fun (j : Nat) =>
        if (j : Int) < t.logicalCoreCount - t.physicalCoreCount then (2 : Int) else 1) ∧
      (t.hasAsymmetricalCoreThreads = true →
        c.numCoresWithHyperThreading = t.logicalCoreCount - t.physicalCoreCount) := by
  by_cases hmid : t.logicalCoreCount ≠ t.physicalCoreCount
      ∧ t.logicalCoreCount ≠ 2 * t.physicalCoreCount
  · have ha : t.hasAsymmetricalCoreThreads = true := by rw [hasym]; exact decide_eq_true hmid
    refine ⟨_, assignThreads_asymmetric t junk jwo jw ha (by omega) (by omega), ?_, ?_⟩
    · apply List.map_congr_left
      intro j _
      have : t.physicalCoreCount - (t.physicalCoreCount * 2 - t.logicalCoreCount)
          = t.logicalCoreCount - t.physicalCoreCount := by omega
      rw [this]
    · intro _
      show t.physicalCoreCount - (t.physicalCoreCount * 2 - t.logicalCoreCount) = _
      omega
  · have ha : t.hasAsymmetricalCoreThreads = false := by
      rw [hasym]; exact decide_eq_false hmid
    refine ⟨_, assignThreads_symmetric t junk jwo jw ha (by omega), ?_, ?_⟩
    · apply List.map_congr_left
      intro j hj
      have hj2 : j < t.physicalCoreCount.toNat := List.mem_range.mp hj
      by_cases hl : t.physicalCoreCount < t.logicalCoreCount
      · have hb : t.isHyperThreadingEnabled = true := by rw [hht]; exact decide_eq_true hl
        rw [hb, if_pos rfl, if_pos (by omega)]
      · have hb : t.isHyperThreadingEnabled = false := by rw [hht]; exact decide_eq_false hl
        rw [hb, if_neg (by decide), if_neg (by omega)]
    · intro h; rw [ha] at h; cases h

/-- Sum of the first `k` entries of an array whose entries below `w` are 2 and whose other
entries are 1. -/
theorem prefix_sum_two_tier (w : Int) (n k : Nat) (h : k ≤ n) :
    ((((List.range n).map fun (j : Nat) => if (j : Int) < w then (2 : Int) else 1)).take k).sum
      = k + min (max w 0) k := by
  rw [← List.map_take, List.take_range, Nat.min_eq_left h]
  exact sum_two_tier w k

/-- C15. For every topology with `p > 0` and `p ≤ l ≤ 2p` (asymmetric flag set exactly
when `l` is neither `p` nor `2p`, hyperthreading flag set exactly when `l > p`) and every
core `c < p`, the unit selected for `c` is the sum of the entries of `threadsPerCoreArray`
before `c`; it is below `l`; and a higher core is given a higher unit. -/
theorem unit_is_prefix_sum (t : Topology) (junk : Nat → Int) (jwo jw : Int)
    (hp : 0 < t.physicalCoreCount) (h1 : t.physicalCoreCount ≤ t.logicalCoreCount)
    (h2 : t.logicalCoreCount ≤ 2 * t.physicalCoreCount)
    (hasym : t.hasAsymmetricalCoreThreads
      = decide (t.logicalCoreCount ≠ t.physicalCoreCount
          ∧ t.logicalCoreCount ≠ 2 * t.physicalCoreCount))
    (hht : t.isHyperThreadingEnabled = decide (t.physicalCoreCount < t.logicalCoreCount)) :
    ∃ c, assignThreads t junk jwo jw = some c ∧
      (∀ core : Nat, (core : Int) < t.physicalCoreCount →
        cpuValue t c core = some ((c.threadsPerCoreArray.take core).sum) ∧
        (c.threadsPerCoreArray.take core).sum < t.logicalCoreCount) ∧
      (∀ core1 core2 : Nat, core1 < core2 → (core2 : Int) < t.physicalCoreCount →
        ∃ u1 u2, cpuValue t c core1 = some u1 ∧ cpuValue t c core2 = some u2 ∧ u1 < u2) := by
  obtain ⟨c, hc, harr, hW⟩ := assignThreads_two_tier t junk jwo jw hp h1 h2 hasym hht
  have key : ∀ core : Nat, (core : Int) < t.physicalCoreCount →
      cpuValue t c core = some ((core : Int)
        + min (max (t.logicalCoreCount - t.physicalCoreCount) 0) core) ∧
      (c.threadsPerCoreArray.take core).sum = (core : Int)
        + min (max (t.logicalCoreCount - t.physicalCoreCount) 0) core := by
    intro core hcore
    have hsum := prefix_sum_two_tier (t.logicalCoreCount - t.physicalCoreCount)
      t.physicalCoreCount.toNat core (by omega)
    rw [← harr] at hsum
    refine ⟨?_, hsum⟩
    have hget : c.threadsPerCoreArray[core]? = some
        (if (core : Int) < t.logicalCoreCount - t.physicalCoreCount then (2 : Int) else 1) := by
      rw [harr]
      exact getElem?_range_map _ _ _ hcore
    rw [cpuValue_of_some t c core _ hget]
    congr 1
    cases ha : t.hasAsymmetricalCoreThreads with
    | true =>
      rw [hW ha]
      by_cases hlt : (core : Int) < t.logicalCoreCount - t.physicalCoreCount
      · have hnot : ¬ ((core : Int) > t.logicalCoreCount - t.physicalCoreCount - 1) := by omega
        simp only [Bool.true_and, decide_eq_true_eq, hnot, if_false, hlt, if_true]
        omega
      · have hgt : (core : Int) > t.logicalCoreCount - t.physicalCoreCount - 1 := by omega
        simp only [Bool.true_and, decide_eq_true_eq, hgt, if_true]
        omega
    | false =>
      have hsym : ¬ (t.logicalCoreCount ≠ t.physicalCoreCount
          ∧ t.logicalCoreCount ≠ 2 * t.physicalCoreCount) := by
        intro hmid
        rw [hasym, decide_eq_true hmid] at ha
        cases ha
      simp only [Bool.false_and, Bool.false_eq_true, if_false]
      by_cases hlt : (core : Int) < t.logicalCoreCount - t.physicalCoreCount
      · simp only [hlt, if_true]; omega
      · simp only [hlt, if_false]; omega
  refine ⟨c, hc, ?_, ?_⟩
  · intro core hcore
    obtain ⟨k1, k2⟩ := key core hcore
    refine ⟨by rw [k1, k2], ?_⟩
    rw [k2]; omega
  · intro core1 core2 h12 hcore2
    obtain ⟨k1, _⟩ := key core1 (by omega)
    obtain ⟨k2, _⟩ := key core2 hcore2
    exact ⟨_, _, k1, k2, by omega⟩

/-- Witness of C15 at 24 physical and 32 logical cores. -/
theorem unit_is_prefix_sum_witness :
    (0 : Int) < 24 ∧ (24 : Int) ≤ 32 ∧ (32 : Int) ≤ 2 * 24 ∧
    ∃ c, assignThreads ⟨1, 24, 32, true, true⟩ (fun _ => 0) 0 0 = some c ∧
      (∀ core : Nat, (core : Int) < 24 →
        cpuValue ⟨1, 24, 32, true, true⟩ c core = some ((c.threadsPerCoreArray.take core).sum) ∧
        (c.threadsPerCoreArray.take core).sum < 32) ∧
      (∀ core1 core2 : Nat, core1 < core2 → (core2 : Int) < 24 →
        ∃ u1 u2, cpuValue ⟨1, 24, 32, true, true⟩ c core1 = some u1 ∧
          cpuValue ⟨1, 24, 32, true, true⟩ c core2 = some u2 ∧ u1 < u2) :=
  ⟨by decide, by decide, by decide,
    unit_is_prefix_sum ⟨1, 24, 32, true, true⟩ (fun _ => 0) 0 0 (by decide) (by decide)
      (by decide) (by decide) (by decide)⟩

/-! ## Cycles and the returned value -/

/-- From any index of an array with the invariant, `k` applications of `next` stay in the
array, and end in the half of the start exactly when `k` is even. -/
theorem next_iterate_half (H : Nat) (m : List Nat) (h : HalvesPerm H m) (v : Nat)
    (hv : v < 2 * H) :
    ∀ k, (next m)^[k] v < 2 * H ∧
      (k % 2 = 0 → ((next m)^[k] v < H ↔ v < H)) ∧
      (k % 2 = 1 → ((next m)^[k] v < H ↔ ¬ v < H)) := by
  intro k
  induction k with
  | zero => exact ⟨hv, fun _ => Iff.rfl, fun hk => by omega⟩
  | succ k ih =>
    obtain ⟨hlt, he, ho⟩ := ih
    rw [Function.iterate_succ_apply']
    by_cases hlow : (next m)^[k] v < H
    · obtain ⟨u, hu, u1, u2⟩ := halvesPerm_low H m h _ hlow
      rw [next_of_some m _ u hu]
      refine ⟨u2, ?_, ?_⟩
      · intro hk
        have := (ho (by omega)).mp hlow
        constructor
        · intro hu3; omega
        · intro hv3; exact absurd hv3 this
      · intro hk
        have := (he (by omega)).mp hlow
        constructor
        · intro hu3; omega
        · intro hv3; exact absurd this hv3
    · obtain ⟨u, hu, u1⟩ := halvesPerm_high H m h _ (by omega) hlt
      rw [next_of_some m _ u hu]
      refine ⟨by omega, ?_, ?_⟩
      · intro hk
        have hiff := ho (by omega)
        constructor
        · intro _
          by_contra hv3
          exact hlow (hiff.mpr hv3)
        · intro _; exact u1
      · intro hk
        have hiff := he (by omega)
        constructor
        · intro _ hv3
          exact hlow (hiff.mpr hv3)
        · intro _; exact u1

/-- C16. In every built array, `v ↦ mem[v]` returns to an index only after an even number
of steps: for every index `i < 2H` and every `k`, if `k` applications lead from `i` back
to `i` then `k` is even; so a cycle has even length, and no return happens after exactly
one step. -/
theorem cycles_have_even_length (H : Nat) (rand junk : Nat → Nat) :
    ∃ s, buildArray H rand junk = some s ∧
      (∀ i, i < arraySize H → s.mem[i]? = some (next s.mem i)) ∧
      (∀ i, i < arraySize H → ∀ k, (next s.mem)^[k] i = i → k % 2 = 0) ∧
      (∀ i, i < arraySize H → ∀ k, 1 ≤ k → (next s.mem)^[k] i = i → 2 ≤ k) := by
  obtain ⟨s, hs, hP⟩ := buildArray_halvesPerm H rand junk
  have hlen := hP.1
  have hev : ∀ i, i < arraySize H → ∀ k, (next s.mem)^[k] i = i → k % 2 = 0 := by
    intro i hi k hk
    have hi2 : i < 2 * H := by simp [arraySize] at hi; omega
    obtain ⟨_, _, ho⟩ := next_iterate_half H s.mem hP i hi2 k
    rcases Nat.mod_two_eq_zero_or_one k with h0 | h1
    · exact h0
    · have := ho h1
      rw [hk] at this
      by_cases hlow : i < H
      · exact absurd hlow (this.mp hlow)
      · exact absurd (this.mpr hlow) hlow
  refine ⟨s, hs, ?_, hev, ?_⟩
  · intro i hi
    obtain ⟨u, hu, _⟩ := halvesPerm_closed H s.mem hP i (by simp [arraySize] at hi; omega)
    rw [next_of_some s.mem i u hu]; exact hu
  · intro i hi k hk1 hk
    have := hev i hi k hk
    omega

/-- C17. For every built array (`H ≥ 1`, `N = 2H`): `mem[0]` is in the high half, the
number `100 * (N / 8192) + N` of steps `runTest` performs is even, and the value `runTest`
ends with is in the high half `[H, N)`.  At the configured half size that value is below
`2 ^ 31`, so its conversion to the `int` return type is the same non-negative number. -/
theorem runTest_returns_high_half (H : Nat) (rand junk : Nat → Nat) (core : Int)
    (hH : 1 ≤ H) :
    ∃ s r, buildArray H rand junk = some s ∧
      runTest (arraySize H) s.mem core = some r ∧
      (∃ v0, s.mem[0]? = some v0 ∧ H ≤ v0 ∧ v0 < arraySize H) ∧
      r.2.steps = 100 * (arraySize H / 8192) + arraySize H ∧ r.2.steps % 2 = 0 ∧
      H ≤ r.2.value ∧ r.2.value < arraySize H ∧
      (H = HALF_ARRAY →
        r.2.value < 2 ^ 31 ∧ toInt32 r.2.value = (r.2.value : Int) ∧ 0 ≤ toInt32 r.2.value) := by
  obtain ⟨s, hs, hP⟩ := buildArray_halvesPerm H rand junk
  have hlen : s.mem.length = arraySize H := by have := hP.1; simp [arraySize]; omega
  obtain ⟨hrun, hlt⟩ := runTest_of_closed (arraySize H) s.mem core hlen
    (by simp [arraySize]; omega)
    (fun v hv => by
      have := halvesPerm_closed H s.mem hP v (by rw [hlen]; exact hv)
      rwa [hlen] at this)
  have heven : (100 * (arraySize H / 8192) + arraySize H) % 2 = 0 := by
    simp only [arraySize]; omega
  obtain ⟨hhigh, _⟩ := (walk_parity H s.mem hP hH
    (100 * (arraySize H / 8192) + arraySize H)).1 heven
  obtain ⟨v0, hv0, hv1, hv2⟩ := halvesPerm_low H s.mem hP 0 (by omega)
  refine ⟨s, _, hs, hrun, ⟨v0, hv0, hv1, by simp [arraySize]; omega⟩, rfl, heven, hhigh,
    hlt, ?_⟩
  intro hcfg
  have hA : arraySize H = 67108864 := by rw [hcfg]; exact array_size_value
  have hval : (next s.mem)^[100 * (arraySize H / 8192) + arraySize H] (next s.mem 0)
      < 2 ^ 31 := by omega
  refine ⟨hval, toInt32_of_lt _ hval, ?_⟩
  rw [toInt32_of_lt _ hval]
  exact Int.natCast_nonneg _

/-- Witness of C17 at the configured half size. -/
theorem runTest_returns_high_half_witness :
    1 ≤ HALF_ARRAY ∧
    ∃ s r, buildArray HALF_ARRAY (fun k => k * k + 5) (fun _ => 0) = some s ∧
      runTest ARRAY_SIZE s.mem 0 = some r ∧
      r.2.steps = 100 * (ARRAY_SIZE / 8192) + ARRAY_SIZE ∧ r.2.steps % 2 = 0 ∧
      HALF_ARRAY ≤ r.2.value ∧ r.2.value < ARRAY_SIZE ∧
      r.2.value < 2 ^ 31 ∧ toInt32 r.2.value = (r.2.value : Int) ∧ 0 ≤ toInt32 r.2.value := by
  refine ⟨by decide, ?_⟩
  obtain ⟨s, r, h1, h2, _, h4, h5, h6, h7, h8⟩ :=
    runTest_returns_high_half HALF_ARRAY (fun k => k * k + 5) (fun _ => 0) 0 (by decide)
  exact ⟨s, r, h1, h2, h4, h5, h6, h7, h8 rfl⟩

/-! ## CountSetBits -/

/-- The test `bitMask & bitTest` with `bitTest = 2 ^ j` reads bit `j` of the mask. -/
theorem and_two_pow_ne_zero (m j : Nat) : m &&& 2 ^ j ≠ 0 ↔ m.testBit j = true := by
  constructor
  · intro h
    by_contra hb
    apply h
    apply Nat.eq_of_testBit_eq
    intro i
    rw [Nat.testBit_and, Nat.testBit_two_pow, Nat.zero_testBit]
    by_cases hij : j = i
    · subst hij; simp [hb]
    · simp [hij]
  · intro h h0
    have := Nat.testBit_and m (2 ^ j) j
    rw [h0, Nat.zero_testBit, h, Nat.testBit_two_pow_self] at this
    cases this

/-- The loop with `n` iterations left and `bitTest = 2 ^ n / 2` adds the number of set bits
among the positions `0, ..., n - 1`, and tests `2 ^ (n - 1), ..., 2, 1` in this order. -/
theorem countLoop_spec (m : Nat) :
    ∀ (n : Nat) (s : BitCount), s.bitTest = 2 ^ n / 2 →
      (countLoop m n s).bitSetCount
        = s.bitSetCount + (List.range n).countP (fun j => m.testBit j) ∧
      (countLoop m n s).tested = s.tested ++ (List.range n).reverse.map (fun j => 2 ^ j) := by
  intro n
  induction n with
  | zero => intro s _; simp [countLoop]
  | succ n ih =>
    intro s hs
    have hbt : s.bitTest = 2 ^ n := by rw [hs, Nat.pow_succ]; omega
    obtain ⟨h1, h2⟩ := ih (countBody m s) (by simp [countBody, hbt])
    have hstep : countLoop m (n + 1) s = countLoop m n (countBody m s) := rfl
    rw [hstep, h1, h2]
    constructor
    · have hc : (countBody m s).bitSetCount
          = s.bitSetCount + (if m.testBit n = true then 1 else 0) := by
        show s.bitSetCount + (if m &&& s.bitTest ≠ 0 then 1 else 0) = _
        rw [hbt]
        by_cases hb : m.testBit n = true
        · rw [if_pos ((and_two_pow_ne_zero m n).mpr hb), if_pos hb]
        · rw [if_neg (fun hne => hb ((and_two_pow_ne_zero m n).mp hne)), if_neg hb]
      rw [hc, List.range_succ, List.countP_append, List.countP_cons, List.countP_nil]
      omega
    · rw [List.range_succ, List.reverse_append]
      simp [countBody, hbt]

/-- Below `2 ^ w`, counting the set bits among the positions `0, ..., w - 1` gives the
population count. -/
theorem countP_testBit_eq_popCount :
    ∀ (w m : Nat), m < 2 ^ w → (List.range w).countP (fun j => m.testBit j) = popCount m := by
  intro w
  induction w with
  | zero =>
    intro m hm
    have : m = 0 := by simpa using hm
    subst this
    simp [popCount]
  | succ w ih =>
    intro m hm
    by_cases h0 : m = 0
    · subst h0
      simp [popCount, List.countP_eq_zero]
    · have hpos : 0 < m := Nat.pos_of_ne_zero h0
      have hhalf : m / 2 < 2 ^ w := by
        rw [Nat.pow_succ] at hm
        omega
      have hd : popCount m = m % 2 + popCount (m / 2) := by
        unfold popCount
        rw [Nat.digits_def' (by decide) hpos, List.sum_cons]
      rw [hd, ← ih (m / 2) hhalf, List.range_succ_eq_map, List.countP_cons, List.countP_map]
      have hfun : ((fun j => m.testBit j) ∘ Nat.succ) = fun j => (m / 2).testBit j := by
        funext j
        simp [Function.comp, Nat.testBit_succ]
      rw [hfun, Nat.testBit_zero]
      rcases Nat.mod_two_eq_zero_or_one m with hm2 | hm2
      · simp [hm2]
      · simp [hm2]; omega

/-- C18. For `sizeof(ULONG_PTR) = ptrBytes ≥ 1` and every mask `m` of `w = 8 * ptrBytes`
bits, `CountSetBits` returns the population count of `m`, which is at most `w`; its loop
tests the `w` values `2 ^ (w - 1), ..., 2, 1` of `bitTest`, each once, from the most
significant position to the least significant. -/
theorem countSetBits_is_popCount (ptrBytes m : Nat) (hb : 1 ≤ ptrBytes)
    (hm : m < 2 ^ (ptrBytes * 8)) :
    CountSetBits ptrBytes m = popCount m ∧
    CountSetBits ptrBytes m = (List.range (ptrBytes * 8)).countP (fun j => m.testBit j) ∧
    CountSetBits ptrBytes m ≤ ptrBytes * 8 ∧
    (countSetBitsRun ptrBytes m).tested
      = (List.range (ptrBytes * 8)).reverse.map (fun j => 2 ^ j) ∧
    (countSetBitsRun ptrBytes m).tested.length = ptrBytes * 8 ∧
    (countSetBitsRun ptrBytes m).tested.Nodup := by
  have hw : ptrBytes * 8 - 1 + 1 = ptrBytes * 8 := by omega
  obtain ⟨h1, h2⟩ := countLoop_spec m (ptrBytes * 8) ⟨0, 1 <<< (ptrBytes * 8 - 1), []⟩ (by
    show 1 <<< (ptrBytes * 8 - 1) = 2 ^ (ptrBytes * 8) / 2
    rw [Nat.one_shiftLeft]
    conv => rhs; rw [← hw, Nat.pow_succ]
    omega)
  have hrun : countSetBitsRun ptrBytes m
      = countLoop m (ptrBytes * 8) ⟨0, 1 <<< (ptrBytes * 8 - 1), []⟩ := by
    simp only [countSetBitsRun, hw]
  have hcount : CountSetBits ptrBytes m
      = (List.range (ptrBytes * 8)).countP (fun j => m.testBit j) := by
    simp only [CountSetBits, hrun, h1, Nat.zero_add]
  have htested : (countSetBitsRun ptrBytes m).tested
      = (List.range (ptrBytes * 8)).reverse.map (fun j => 2 ^ j) := by
    simp only [hrun, h2, List.nil_append]
  refine ⟨by rw [hcount]; exact countP_testBit_eq_popCount _ m hm, hcount, ?_, htested, ?_, ?_⟩
  · rw [hcount]
    have := List.countP_le_length (fun j => m.testBit j) (l := List.range (ptrBytes * 8))
    simpa using this
  · rw [htested]; simp
  · rw [htested]
    refine List.Nodup.map ?_ (List.nodup_reverse.mpr (List.nodup_range _))
    intro a b hab
    exact Nat.pow_right_injective (le_refl 2) hab

/-- Witness of C18 for a 64-bit mask with the lowest four and the highest bit set. -/
theorem countSetBits_is_popCount_witness :
    1 ≤ 8 ∧ 0x800000000000000F < 2 ^ (8 * 8) ∧
    CountSetBits 8 0x800000000000000F = popCount 0x800000000000000F ∧
    CountSetBits 8 0x800000000000000F
      = (List.range (8 * 8)).countP (fun j => (0x800000000000000F : Nat).testBit j) ∧
    CountSetBits 8 0x800000000000000F ≤ 8 * 8 ∧
    (countSetBitsRun 8 0x800000000000000F).tested
      = (List.range (8 * 8)).reverse.map (fun j => 2 ^ j) ∧
    (countSetBitsRun 8 0x800000000000000F).tested.length = 8 * 8 ∧
    (countSetBitsRun 8 0x800000000000000F).tested.Nodup :=
  ⟨by decide, by decide, countSetBits_is_popCount 8 0x800000000000000F (by decide) (by decide)⟩

/-! ## Distribution of the low shuffle -/

/-- Every draw sequence leaves in the low half a rearrangement of `H, ..., 2H - 1`. -/
theorem lowHalfAfter_perm (H : Nat) (ds : List Nat) :
    ∃ p, lowHalfAfter H ds = some p ∧ p.Perm (List.range' H H) := by
  obtain ⟨u, hu, hP⟩ := shuffleLow_halvesPerm (drawsOf ds) H
    ⟨List.range' H H ++ List.range' 0 H, 0⟩ (halvesPerm_fill H)
  exact ⟨u.mem.take H, by simp [lowHalfAfter, fillArray_eq, hu], hP.2.1⟩

theorem length_drawSeqs (H : Nat) : ∀ n, (drawSeqs H n).length = H ^ n := by
  intro n
  induction n with
  | zero => rfl
  | succ n ih =>
    have hfun : (List.length ∘ fun r => List.map (fun ds => r :: ds) (drawSeqs H n))
        = fun _ => H ^ n := by
      funext r
      simp [ih]
    simp only [drawSeqs, List.length_flatMap]
    rw [hfun, List.map_const', List.sum_replicate, List.length_range, Nat.pow_succ]
    simp [Nat.mul_comm]

/-- In a list without repetition the indicator of `b0` sums to 1 when `b0` occurs. -/
theorem sum_indicator_of_mem {β : Type} [DecidableEq β] (b0 : β) :
    ∀ (L : List β), L.Nodup → b0 ∈ L →
      (L.map fun b => if b0 = b then 1 else 0).sum = 1 := by
  intro L
  induction L with
  | nil => intro _ h; cases h
  | cons x L ih =>
    intro hnd hmem
    have hx : x ∉ L := (List.nodup_cons.mp hnd).1
    have hL : L.Nodup := (List.nodup_cons.mp hnd).2
    rw [List.map_cons, List.sum_cons]
    by_cases hb : b0 = x
    · subst hb
      have hzero : (L.map fun b => if b0 = b then 1 else 0).sum = 0 := by
        apply List.sum_eq_zero
        intro n hn
        obtain ⟨b, hbL, rfl⟩ := List.mem_map.mp hn
        have : b0 ≠ b := fun h => hx (h ▸ hbL)
        simp [this]
      simp [hzero]
    · have hmem2 : b0 ∈ L := by
        rcases List.mem_cons.mp hmem with h | h
        · exact absurd h hb
        · exact h
      rw [if_neg hb, ih hL hmem2]

/-- Counting the elements of `as` by the value of `f`, over a list `L` without repetition
that contains every value, counts every element once. -/
theorem sum_fibers {α β : Type} [DecidableEq β] (f : α → Option β) (L : List β)
    (hnd : L.Nodup) :
    ∀ (as : List α), (∀ a ∈ as, ∃ b ∈ L, f a = some b) →
      (L.map fun b => as.countP fun a => decide (f a = some b)).sum = as.length := by
  intro as
  induction as with
  | nil => intro _; simp
  | cons a as ih =>
    intro hall
    obtain ⟨b0, hb0, hfa⟩ := hall a (List.mem_cons_self a as)
    have hrest := ih (fun x hx => hall x (List.mem_cons_of_mem a hx))
    have hsplit : (L.map fun b => (a :: as).countP fun x => decide (f x = some b))
        = L.map fun b => (as.countP fun x => decide (f x = some b))
            + (if b0 = b then 1 else 0) := by
      apply List.map_congr_left
      intro b _
      rw [List.countP_cons, hfa]
      simp
    rw [hsplit, List.sum_map_add, hrest, sum_indicator_of_mem b0 L hnd hb0, List.length_cons]

/-- The draw sequences are distributed over the arrangements: the numbers `producing H p`
over all arrangements `p` sum to `H ^ H`. -/
theorem sum_producing (H : Nat) :
    ((List.range' H H).permutations.map fun p => producing H p).sum = H ^ H := by
  have h := sum_fibers (lowHalfAfter H) (List.range' H H).permutations
    (List.nodup_permutations _ (List.nodup_range' H H)) (drawSeqs H H)
    (fun ds _ => by
      obtain ⟨p, hp, hperm⟩ := lowHalfAfter_perm H ds
      exact ⟨p, List.mem_permutations.mpr hperm, hp⟩)
  rw [length_drawSeqs] at h
  exact h

theorem factorial_not_dvd_pow (H : Nat) (hH : 3 ≤ H) : ¬ Nat.factorial H ∣ H ^ H := by
  intro hdvd
  have h1 : (H - 1) ∣ Nat.factorial H := Nat.dvd_factorial (by omega) (by omega)
  have h2 : (H - 1) ∣ H ^ H := Nat.dvd_trans h1 hdvd
  have hco : Nat.Coprime (H - 1) H := by
    have : Nat.Coprime (H - 1) (H - 1 + 1) := by simp
    rwa [show H - 1 + 1 = H by omega] at this
  have := (hco.pow_right H).eq_one_of_dvd h2
  omega

/-- A uniform low shuffle would make `H !` divide `H ^ H`. -/
theorem uniform_dvd (H : Nat) (hu : UniformLowShuffle H) : Nat.factorial H ∣ H ^ H := by
  have hconst : ((List.range' H H).permutations.map fun p => producing H p)
      = (List.range' H H).permutations.map fun _ => producing H (List.range' H H) := by
    apply List.map_congr_left
    intro p hp
    exact hu p _ (List.mem_permutations.mp hp) (List.Perm.refl _)
  have hsum := sum_producing H
  rw [hconst, List.map_const', List.sum_replicate, List.length_permutations,
    List.length_range'] at hsum
  exact ⟨producing H (List.range' H H), by rw [← hsum]; simp⟩

theorem perm_pair (p : List Nat) (a b : Nat) (hab : a ≠ b) (h : p.Perm [a, b]) :
    p = [a, b] ∨ p = [b, a] := by
  have hlen := h.length_eq
  have hnd : p.Nodup := (h.nodup_iff).mpr (by simp [hab])
  match p, hlen, hnd, h with
  | [x, y], _, hnd, h =>
    have hx : x ∈ [a, b] := (h.mem_iff).mp (by simp)
    have hy : y ∈ [a, b] := (h.mem_iff).mp (by simp)
    have hxy : x ≠ y := by
      intro e; subst e; simp at hnd
    simp only [List.mem_cons, List.mem_singleton, List.not_mem_nil, or_false] at hx hy
    rcases hx with rfl | rfl <;> rcases hy with rfl | rfl
    · exact absurd rfl hxy
    · exact Or.inl rfl
    · exact Or.inr rfl
    · exact absurd rfl hxy

theorem producing_two : producing 2 [2, 3] = 2 ∧ producing 2 [3, 2] = 2 := by decide

theorem producing_three : producing 3 [3, 4, 5] = 4 ∧ producing 3 [4, 3, 5] = 5 := by decide

/-- C12, counterexample. For `H = 3` the 27 draw sequences `(r_0, r_1, r_2)` with every
`r_i` in `[0, 3)` leave the low half in its initial arrangement `3, 4, 5` four times and
in the arrangement `4, 3, 5` five times, so the permutations are not produced by the same
number of draw sequences. -/
theorem low_shuffle_biased_at_three :
    List.Perm [3, 4, 5] (List.range' 3 3) ∧ List.Perm [4, 3, 5] (List.range' 3 3) ∧
    (drawSeqs 3 3).length = 27 ∧
    producing 3 [3, 4, 5] = 4 ∧ producing 3 [4, 3, 5] = 5 ∧
    ¬ UniformLowShuffle 3 := by
  refine ⟨by decide, by decide, by decide, producing_three.1, producing_three.2, ?_⟩
  intro hu
  have := hu [3, 4, 5] [4, 3, 5] (by decide) (by decide)
  rw [producing_three.1, producing_three.2] at this
  cases this

/-- C12, amended. For every half size `H`, each draw sequence leaves in the low half a
permutation of its values `H, ..., 2H - 1`, and there are `H ^ H` draw sequences
`(r_0, ..., r_{H-1})` with every `r_i` in `[0, H)`; every permutation is produced by the
same number of them exactly when `H ≤ 2`. -/
theorem low_shuffle_uniform_iff (H : Nat) :
    (∀ ds, ∃ p, lowHalfAfter H ds = some p ∧ p.Perm (List.range' H H)) ∧
    (drawSeqs H H).length = H ^ H ∧
    ((List.range' H H).permutations.map fun p => producing H p).sum = H ^ H ∧
    (UniformLowShuffle H ↔ H ≤ 2) := by
  refine ⟨lowHalfAfter_perm H, length_drawSeqs H H, sum_producing H, ?_, ?_⟩
  · intro hu
    by_contra hH
    exact factorial_not_dvd_pow H (by omega) (uniform_dvd H hu)
  · intro hH p q hp hq
    have hcases : H = 0 ∨ H = 1 ∨ H = 2 := by omega
    rcases hcases with rfl | rfl | rfl
    · have e1 : p = [] := List.Perm.eq_nil hp
      have e2 : q = [] := List.Perm.eq_nil hq
      rw [e1, e2]
    · have e1 : p = [1] := List.perm_singleton.mp hp
      have e2 : q = [1] := List.perm_singleton.mp hq
      rw [e1, e2]
    · have e1 := perm_pair p 2 3 (by decide) hp
      have e2 := perm_pair q 2 3 (by decide) hq
      rcases e1 with rfl | rfl <;> rcases e2 with rfl | rfl <;>
        simp only [producing_two.1, producing_two.2]

end BoostTester
